import Mathlib

/-!
# Stat-block extraction engine of `main.go`

A shallow embedding of the extraction core of `scrapeCreaturePage` and of
`extractSpeed` (file `main.go`), followed by theorems about it.

Conventions of the embedding.

* A Go `string` is modelled as the list of its Unicode code points
  (`Str = List Char`); the source only ever handles text that went through
  the HTML parser, which is valid UTF-8.
* A run-time panic (index out of range) is the value `none`.
* Go maps (`Stats`, `Extra`) are association lists with unique keys.
* `float64` values are modelled exactly, as fractions of natural numbers
  rounded to 53 significant bits, ties to even.
* The part of the Unicode lower-case table above ASCII is a parameter
  (`caseTable`); nothing proved here depends on its content.
-/

namespace ScraperToMd

/-- A Go string, as the sequence of its code points. -/
abbrev Str := List Char

/-! ## The `strings` package -/

/-- Go `unicode.IsSpace`, on the code point of `c`: the Latin-1 spaces
(tab, newline, vertical tab, form feed, carriage return, space, U+0085,
U+00A0) and the other code points with the Unicode property White_Space. -/
def isSpace (c : Char) : Bool :=
  c.toNat = 0x09 || c.toNat = 0x0A || c.toNat = 0x0B || c.toNat = 0x0C || c.toNat = 0x0D
    || c.toNat = 0x20 || c.toNat = 0x85 || c.toNat = 0xA0 || c.toNat = 0x1680
    || (0x2000 ≤ c.toNat && c.toNat ≤ 0x200A)
    || c.toNat = 0x2028 || c.toNat = 0x2029 || c.toNat = 0x202F || c.toNat = 0x205F
    || c.toNat = 0x3000

/-- Go `strings.TrimSpace`: leading and trailing white space removed. -/
def trimSpace (s : Str) : Str :=
  ((s.dropWhile isSpace).reverse.dropWhile isSpace).reverse

/-- Go `strings.HasPrefix`. -/
def hasPrefix : Str → Str → Bool
  | _, [] => true
  | [], _ :: _ => false
  | c :: cs, p :: ps => c = p && hasPrefix cs ps

/-- Go `strings.TrimPrefix`: `s` without the leading `p`, or `s` itself
when `p` is not a prefix of `s`. -/
def trimPrefix (s p : Str) : Str :=
  if hasPrefix s p then s.drop p.length else s

/-- Go `strings.Contains`: `sub` occurs at some position of `s`. -/
def contains : Str → Str → Bool
  | [], sub => hasPrefix [] sub
  | c :: cs, sub => hasPrefix (c :: cs) sub || contains cs sub

/-- Go `unicode.ToLower` on one code point: the ASCII letters `A` to `Z`
(65 to 90) move to `a` to `z`, the other ASCII code points stay, and every
code point above ASCII goes through the Unicode case table. -/
def lowerRune (caseTable : Char → Char) (c : Char) : Char :=
  if c.toNat ≤ 0x7F then
    (if 65 ≤ c.toNat ∧ c.toNat ≤ 90 then Char.ofNat (c.toNat + 32) else c)
  else caseTable c

/-- Go `strings.ToLower`: every code point mapped by `unicode.ToLower`. -/
def toLower (caseTable : Char → Char) (s : Str) : Str :=
  s.map (lowerRune caseTable)

/-- Go `strings.Split(s, sep)` for a one-character separator: the pieces
of `s` between the occurrences of `sep` (always at least one piece). -/
def split (sep : Char) : Str → List Str
  | [] => [[]]
  | c :: cs =>
    if c = sep then [] :: split sep cs
    else
      match split sep cs with
      | [] => [[c]]
      | p :: ps => (c :: p) :: ps

/-- Go `strings.SplitN(s, sep, 2)` for a one-character separator: the text
before the first `sep` and the text after it, or `s` alone when `sep` does
not occur. -/
def splitN2 (sep : Char) : Str → List Str
  | [] => [[]]
  | c :: cs =>
    if c = sep then [[], cs]
    else
      match splitN2 sep cs with
      | [] => [[c]]
      | p :: ps => (c :: p) :: ps

/-- The loop of Go `strings.Fields`: `cur` is the field being read. -/
def fieldsAux : Str → Str → List Str
  | [], cur => if cur = [] then [] else [cur.reverse]
  | c :: cs, cur =>
    if isSpace c then
      (if cur = [] then fieldsAux cs [] else cur.reverse :: fieldsAux cs [])
    else fieldsAux cs (c :: cur)

/-- Go `strings.Fields`: the maximal runs of non-space code points. -/
def fields (s : Str) : List Str := fieldsAux s []

/-! ## The two regular expressions (RE2 syntax, ASCII classes) -/

/-- The class `\d` of Go regular expressions: the ASCII digits `0` to `9`
(code points 48 to 57). -/
def isDigit (c : Char) : Bool := 48 ≤ c.toNat && c.toNat ≤ 57

/-- The class `\s` of Go regular expressions: tab, newline, form feed,
carriage return, space. -/
def isReSpace (c : Char) : Bool :=
  c.toNat = 0x09 || c.toNat = 0x0A || c.toNat = 0x0C || c.toNat = 0x0D || c.toNat = 0x20

/-- The class `\w` of Go regular expressions: `[0-9A-Za-z_]`. -/
def isWord (c : Char) : Bool :=
  (48 ≤ c.toNat && c.toNat ≤ 57) || (65 ≤ c.toNat && c.toNat ≤ 90)
    || (97 ≤ c.toNat && c.toNat ≤ 122) || c.toNat = 95

/-- A match of `(\d+)\s*ft` that starts at the head of `s`: the digits
captured by the group. The greedy `\d+` has to take the whole run of
digits and `\s*` the whole run of spaces, since `f` is neither. -/
def ftMatchAt (s : Str) : Option Str :=
  let d := s.takeWhile isDigit
  if d ≠ [] ∧ hasPrefix ((s.dropWhile isDigit).dropWhile isReSpace) ['f', 't'] = true
  then some d else none

/-- The call `re.FindStringSubmatch` for `(\d+)\s*ft`: the capture group of
the leftmost match, `none` when nothing matches. -/
def findFt : Str → Option Str
  | [] => none
  | c :: cs =>
    match ftMatchAt (c :: cs) with
    | some d => some d
    | none => findFt cs

/-- A match of `\w+ beast, \w+` that starts at the head of `s`. -/
def beastMatchAt (s : Str) : Bool :=
  let w := s.takeWhile isWord
  let r := s.dropWhile isWord
  w ≠ [] && hasPrefix r " beast, ".toList &&
    (match r.drop 8 with
     | [] => false
     | c :: _ => isWord c)

/-- The call `regexp.MatchString` for `\w+ beast, \w+`: some position of
`s` starts a match. -/
def beastMatch : Str → Bool
  | [] => false
  | c :: cs => beastMatchAt (c :: cs) || beastMatch cs

/-! ## `strconv.Atoi`, `float64` and `Sprintf` -/

/-- The largest Go `int` (64-bit platform). -/
def maxInt : Nat := 2 ^ 63 - 1

/-- The value of a string of decimal digits. -/
def digitsToNat (ds : Str) : Nat :=
  ds.foldl (fun acc c => acc * 10 + (c.toNat - 48)) 0

/-- Go `strconv.Atoi` on a non-empty string of ASCII digits: the value, or
an error (`none`) when it does not fit in an `int`. -/
def atoi (ds : Str) : Option Nat :=
  let v := digitsToNat ds
  if v ≤ maxInt then some v else none

/-- The integer nearest to `n / d`, a tie going to the even one. -/
def roundHalfEven (n d : Nat) : Nat :=
  let q := n / d
  let r := n % d
  if 2 * r < d then q
  else if d < 2 * r then q + 1
  else if q % 2 = 0 then q else q + 1

/-- The loop of `log2`, bounded by `fuel`. -/
def log2Fuel : Nat → Nat → Nat
  | 0, _ => 0
  | fuel + 1, n => if 2 ≤ n then log2Fuel fuel (n / 2) + 1 else 0

/-- The position of the leading bit of `n`: `2 ^ log2 n ≤ n < 2 ^ (log2 n + 1)`
for `n > 0`. -/
def log2 (n : Nat) : Nat := log2Fuel n n

/-- A non-negative finite `float64`, as the exact fraction `num / den`. -/
structure F64 where
  num : Nat
  den : Nat
deriving DecidableEq, Repr

/-- The `float64` nearest to the fraction `n / d` (`d > 0`), ties to the
even significand: `n / d` is scaled to 53 significant bits, rounded, and
scaled back. Exact for the normal range, which the values met here
(between 1/5 and 3 * 2^62) never leave. -/
def f64Round (n d : Nat) : F64 :=
  if n = 0 then ⟨0, 1⟩
  else if d ≤ n then
    let e := log2 (n / d)
    if e ≤ 52 then ⟨roundHalfEven (n * 2 ^ (52 - e)) d, 2 ^ (52 - e)⟩
    else ⟨roundHalfEven n (d * 2 ^ (e - 52)) * 2 ^ (e - 52), 1⟩
  else
    let j0 := log2 (d / n)
    let j := if d ≤ n * 2 ^ j0 then j0 else j0 + 1
    ⟨roundHalfEven (n * 2 ^ (52 + j)) d, 2 ^ (52 + j)⟩

/-- The conversion `float64(v)` of an `int`. -/
def f64OfInt (v : Nat) : F64 := f64Round v 1

/-- The quotient `x / 5.0`. -/
def f64DivFive (x : F64) : F64 := f64Round x.num (x.den * 5)

/-- The product `x * 1.5`. -/
def f64MulOneHalf (x : F64) : F64 := f64Round (x.num * 3) (x.den * 2)

/-- The verb `%.0f` of `Sprintf`: the exact value rounded to an integer,
ties to even, in decimal. -/
def fmtF0 (x : F64) : Str := Nat.toDigits 10 (roundHalfEven x.num x.den)

/-- The line `fmt.Sprintf("%d ft (%.0f q, %.0f m)", speedValue, speedSq,
speedMt)` of `extractSpeed`, with the two products before it. -/
def formatSpeed (speedValue : Nat) : Str :=
  let speedSq := f64DivFive (f64OfInt speedValue)
  let speedMt := f64MulOneHalf speedSq
  Nat.toDigits 10 speedValue ++ " ft (".toList ++ fmtF0 speedSq ++ " q, ".toList
    ++ fmtF0 speedMt ++ " m)".toList

/-- The function `extractSpeed` of `main.go`. -/
def extractSpeed (text : Str) : Str :=
  let rawSpeed := trimSpace (trimPrefix text "Speed".toList)
  match findFt rawSpeed with
  | none => rawSpeed
  | some digits =>
    match atoi digits with
    | none => rawSpeed
    | some speedValue =>
      let speed := formatSpeed speedValue
      if contains rawSpeed [','] then
        let extraSpeeds := splitN2 ',' rawSpeed
        if 1 < extraSpeeds.length then speed ++ [','] ++ extraSpeeds.getD 1 []
        else speed
      else speed

/-! ## Go maps from string to string -/

/-- A Go `map[string]string`. -/
abbrev StrMap := List (Str × Str)

/-- The read `m[k]`, with `none` for an absent key. -/
def mapGet : StrMap → Str → Option Str
  | [], _ => none
  | (k', v) :: rest, k => if k' = k then some v else mapGet rest k

/-- The assignment `m[k] = v`: the entry of `k` is replaced, or added. -/
def mapSet : StrMap → Str → Str → StrMap
  | [], k, v => [(k, v)]
  | (k', v') :: rest, k, v =>
    if k' = k then (k, v) :: rest else (k', v') :: mapSet rest k v

/-! ## The record and the line loop of `scrapeCreaturePage` -/

/-- The Go struct `Action`. -/
structure Action where
  Name : Str
  Description : Str
deriving DecidableEq, Repr

/-- The Go struct `Creature` (the field `Type` is called `Type_` here). -/
structure Creature where
  Title : Str
  Subtitle : Str
  ImageURL : Str
  AC : Str
  HP : Str
  Speed : Str
  Stats : StrMap
  Skills : Str
  Senses : Str
  Languages : Str
  Proficiency : Str
  Actions : List Action
  Description : Str
  Type_ : Str
  Extra : StrMap
deriving DecidableEq, Repr

/-- The record `Creature{Stats: make(...), Extra: make(...)}`: every field
empty. -/
def emptyCreature : Creature :=
  { Title := [], Subtitle := [], ImageURL := [], AC := [], HP := [], Speed := [],
    Stats := [], Skills := [], Senses := [], Languages := [], Proficiency := [],
    Actions := [], Description := [], Type_ := [], Extra := [] }

/-- The variables the line loop carries: the record `c` and the two section
flags. -/
structure LoopState where
  c : Creature
  isDescription : Bool
  isActions : Bool
deriving DecidableEq, Repr

/-- The `default` branch of the loop's `switch`: a trait line
"Name. Description". -/
def defaultCase (st : LoopState) (text : Str) : Option LoopState :=
  if ¬ contains text ['.'] then some st
  else
    let parts := splitN2 '.' text
    match parts[0]? with
    | none => none
    | some part0 =>
      let name := trimSpace part0
      if name ≠ "Source".toList ∧ ¬ st.isDescription then
        match parts[1]? with
        | none => none
        | some part1 =>
          some { st with c := { st.c with Extra := mapSet st.c.Extra name (trimSpace part1) } }
      else some st

/-- One iteration of the loop `for _, rawLine := range lines` of
`scrapeCreaturePage`; `none` is a run-time panic. -/
def step (caseTable : Char → Char) (st : LoopState) (rawLine : Str) : Option LoopState :=
  let text := trimSpace rawLine
  if text = [] then some st
  else
    let lowerText := toLower caseTable text
    if lowerText = "actions".toList then
      some { st with isActions := true, isDescription := false }
    else if lowerText = "description".toList then
      some { st with isDescription := true, isActions := false }
    else if st.isDescription then
      some { st with c := { st.c with Description := st.c.Description ++ (text ++ "\n\n".toList) } }
    else if contains text "Armor Class".toList then
      some { st with c := { st.c with AC := trimSpace (trimPrefix text "Armor Class".toList) } }
    else if contains text "Hit Points".toList then
      some { st with c := { st.c with HP := trimSpace (trimPrefix text "Hit Points".toList) } }
    else if contains text "Speed".toList then
      some { st with c := { st.c with Speed := extractSpeed text } }
    else if hasPrefix text "Challenge".toList then
      match (fields text)[1]? with
      | none => none
      | some tok => some { st with c := { st.c with Subtitle := tok } }
    else if hasPrefix text "Skills".toList then
      some { st with c := { st.c with Skills := trimSpace (trimPrefix text "Skills".toList) } }
    else if hasPrefix text "Senses".toList then
      some { st with c := { st.c with Senses := trimSpace (trimPrefix text "Senses".toList) } }
    else if hasPrefix text "Languages".toList then
      some { st with c := { st.c with Languages := trimSpace (trimPrefix text "Languages".toList) } }
    else if hasPrefix text "Proficiency Bonus".toList then
      some { st with c := { st.c with
        Proficiency := trimSpace (trimPrefix text "Proficiency Bonus".toList) } }
    else if st.isActions ∨ contains text "Attack:".toList then
      match (split '.' text)[0]? with
      | none => none
      | some name =>
        some { st with c := { st.c with Actions := st.c.Actions ++
          [{ Name := name, Description := trimSpace (trimPrefix text (name ++ ['.'])) }] } }
    else if contains text "beast".toList then
      if beastMatch text then some { st with c := { st.c with Type_ := text } }
      else defaultCase st text
    else defaultCase st text

/-- The whole loop over `lines`, from the state `st`. -/
def classifyLines (caseTable : Char → Char) (st : LoopState) : List Str → Option LoopState
  | [] => some st
  | rawLine :: rest =>
    match step caseTable st rawLine with
    | none => none
    | some st' => classifyLines caseTable st' rest

/-- The state in which the loop starts on the record `c`: both flags
`false`. -/
def initState (c : Creature) : LoopState :=
  { c := c, isDescription := false, isActions := false }

/-! ## The ability-score table -/

/-- The `switch name` of the table callback: the code of a canonical ability
name, the empty string for any other name. -/
def abilityKey (name : Str) : Str :=
  if name = "Strength".toList then "STR".toList
  else if name = "Dexterity".toList then "DEX".toList
  else if name = "Constitution".toList then "CON".toList
  else if name = "Intelligence".toList then "INT".toList
  else if name = "Wisdom".toList then "WIS".toList
  else if name = "Charisma".toList then "CHA".toList
  else []

/-- The callback run on one table row, given the texts of its `td` cells. -/
def statsRow (stats : StrMap) (cells : List Str) : StrMap :=
  if cells.length < 3 then stats
  else
    let name := trimSpace (cells.getD 0 [])
    let score := trimSpace (cells.getD 1 [])
    let bonus := trimSpace (cells.getD 2 [])
    let key := abilityKey name
    if key ≠ [] then mapSet stats key (score ++ " (".toList ++ bonus ++ ")".toList)
    else stats

/-- The pass `doc.Find("table.wiki-content-table tr").Each(...)` over the
rows of the table. -/
def extractStats (stats : StrMap) (rows : List (List Str)) : StrMap :=
  rows.foldl statsRow stats

/-- The extraction core of `scrapeCreaturePage`: the line loop, then the
table pass, on the record `c` that already holds title and image. -/
def scrapeCreature (caseTable : Char → Char) (c : Creature) (lines : List Str)
    (rows : List (List Str)) : Option Creature :=
  match classifyLines caseTable (initState c) lines with
  | none => none
  | some st => some { st.c with Stats := extractStats st.c.Stats rows }

/-! ## The line-break replacement of the normalizer -/

/-- The six lines of the worked example of the specification. -/
def exampleLines : List Str :=
  ["Armor Class 15".toList, "Hit Points 30".toList, "Actions".toList,
   "Bite. +4 to hit, 5 (1d6+2) piercing damage.".toList, "Description".toList,
   "A fearsome beast.".toList]

/-- The content rules of section 4.4 of the specification, in the order it
lists them (a to h): the condition of each rule and its effect. -/
def contentRules : List ((LoopState → Str → Bool) × (LoopState → Str → Option LoopState)) :=
  [ (fun _ text => contains text "Armor Class".toList,
      fun st text => some { st with c := { st.c with
        AC := trimSpace (trimPrefix text "Armor Class".toList) } }),
    (fun _ text => contains text "Hit Points".toList,
      fun st text => some { st with c := { st.c with
        HP := trimSpace (trimPrefix text "Hit Points".toList) } }),
    (fun _ text => contains text "Speed".toList,
      fun st text => some { st with c := { st.c with Speed := extractSpeed text } }),
    (fun _ text => hasPrefix text "Challenge".toList,
      fun st text => ((fields text)[1]?).map
        (fun tok => { st with c := { st.c with Subtitle := tok } })),
    (fun _ text => hasPrefix text "Skills".toList,
      fun st text => some { st with c := { st.c with
        Skills := trimSpace (trimPrefix text "Skills".toList) } }),
    (fun _ text => hasPrefix text "Senses".toList,
      fun st text => some { st with c := { st.c with
        Senses := trimSpace (trimPrefix text "Senses".toList) } }),
    (fun _ text => hasPrefix text "Languages".toList,
      fun st text => some { st with c := { st.c with
        Languages := trimSpace (trimPrefix text "Languages".toList) } }),
    (fun _ text => hasPrefix text "Proficiency Bonus".toList,
      fun st text => some { st with c := { st.c with
        Proficiency := trimSpace (trimPrefix text "Proficiency Bonus".toList) } }),
    (fun st text => st.isActions || contains text "Attack:".toList,
      fun st text => some { st with c := { st.c with Actions := st.c.Actions ++
        [{ Name := text.takeWhile (fun ch => ch ≠ '.'),
           Description := trimSpace (trimPrefix text
             (text.takeWhile (fun ch => ch ≠ '.') ++ ['.'])) }] } }),
    (fun _ text => contains text "beast".toList && beastMatch text,
      fun st text => some { st with c := { st.c with Type_ := text } }),
    (fun _ _ => true,
      fun st text =>
        if '.' ∈ text ∧ trimSpace (text.takeWhile (fun ch => ch ≠ '.')) ≠ "Source".toList then
          some { st with c := { st.c with Extra := (mapSet st.c.Extra
            (trimSpace (text.takeWhile (fun ch => ch ≠ '.')))
            (trimSpace ((text.dropWhile (fun ch => ch ≠ '.')).drop 1))) } }
        else some st) ]

/-- The effect of the first rule of the list whose condition holds. -/
def firstRule :
    List ((LoopState → Str → Bool) × (LoopState → Str → Option LoopState)) →
      LoopState → Str → Option LoopState
  | [], st, _ => some st
  | rule :: rest, st, text =>
    if rule.1 st text = true then rule.2 st text else firstRule rest st text

/-- The effects one step may have on the record, each leaving every other
field as it was: nothing, a paragraph appended to the description, one scalar
field assigned, one action appended, or one trait stored in `Extra` under the
trimmed text before the first period of `text`, never under "Source". -/
def StepEffect (c c' : Creature) (text : Str) : Prop :=
  c' = c
  ∨ (∃ s, c' = { c with Description := c.Description ++ s })
  ∨ (∃ v, c' = { c with AC := v })
  ∨ (∃ v, c' = { c with HP := v })
  ∨ (∃ v, c' = { c with Speed := v })
  ∨ (∃ v, c' = { c with Subtitle := v })
  ∨ (∃ v, c' = { c with Skills := v })
  ∨ (∃ v, c' = { c with Senses := v })
  ∨ (∃ v, c' = { c with Languages := v })
  ∨ (∃ v, c' = { c with Proficiency := v })
  ∨ (∃ v, c' = { c with Type_ := v })
  ∨ (∃ a, c' = { c with Actions := c.Actions ++ [a] })
  ∨ (∃ v, trimSpace (text.takeWhile (fun ch => ch ≠ '.')) ≠ "Source".toList ∧
      c' = { c with Extra := mapSet c.Extra (trimSpace (text.takeWhile (fun ch => ch ≠ '.'))) v })

/-- The statement of C9: the record `c'` differs from `c` by at most one
effect. -/
def OneEffect (c c' : Creature) : Prop :=
  (∃ v, c' = { c with AC := v })
  ∨ (∃ v, c' = { c with HP := v })
  ∨ (∃ v, c' = { c with Speed := v })
  ∨ (∃ v, c' = { c with Subtitle := v })
  ∨ (∃ v, c' = { c with Skills := v })
  ∨ (∃ v, c' = { c with Senses := v })
  ∨ (∃ v, c' = { c with Languages := v })
  ∨ (∃ v, c' = { c with Proficiency := v })
  ∨ (∃ v, c' = { c with Type_ := v })
  ∨ (∃ a, c' = { c with Actions := c.Actions ++ [a] })
  ∨ (∃ k v, c' = { c with Extra := mapSet c.Extra k v })
  ∨ (∃ s, c' = { c with Description := c.Description ++ s })
  ∨ c' = c

/-- The trait line of the worked example of the specification. -/
def keenSmellLine : Str := "Keen Smell. The creature has advantage on Wisdom checks.".toList

/-- The text `p` holds, right after its first `pre.length` characters, a
decimal integer `d` followed by optional white space `ws` and "ft". -/
def FtOccurrence (p pre d ws post : Str) : Prop :=
  p = pre ++ d ++ ws ++ ['f', 't'] ++ post ∧ d ≠ [] ∧ (∀ c ∈ d, isDigit c = true)
    ∧ (∀ c ∈ ws, isReSpace c = true)

/-- The occurrence that starts leftmost in `p`. -/
def FirstFtOccurrence (p pre d ws post : Str) : Prop :=
  FtOccurrence p pre d ws post ∧
    ∀ pre' d' ws' post', FtOccurrence p pre' d' ws' post' → pre.length ≤ pre'.length

/-- The phrase after removal of a leading "Speed" label and trimming. -/
def speedPhrase (p : Str) : Str := trimSpace (trimPrefix p "Speed".toList)

/-- Everything after the first occurrence of `sep` in `s`. -/
def afterFirst (sep : Char) (s : Str) : Str := (s.dropWhile (fun ch => ch ≠ sep)).drop 1

/-- The figure printed before "q": `float64(v) / 5.0` under the verb `%.0f`. -/
def qFigure (v : Nat) : Nat :=
  roundHalfEven (f64DivFive (f64OfInt v)).num (f64DivFive (f64OfInt v)).den

/-- The figure printed before "m": `float64(v) / 5.0 * 1.5` under the verb
`%.0f`. -/
def mFigure (v : Nat) : Nat :=
  roundHalfEven (f64MulOneHalf (f64DivFive (f64OfInt v))).num
    (f64MulOneHalf (f64DivFive (f64OfInt v))).den

/-- The base string "<v> ft (<q> q, <m> m)" of the specification, with the
figures the code prints. -/
def speedBase (v : Nat) : Str :=
  Nat.toDigits 10 v ++ " ft (".toList ++ Nat.toDigits 10 (qFigure v) ++ " q, ".toList
    ++ Nat.toDigits 10 (mFigure v) ++ " m)".toList

/-- A phrase whose integer does not fit in an `int`. -/
def hugeSpeedPhrase : Str := "99999999999999999999 ft".toList

/-- A phrase with two movement modes and a trailing blank. -/
def paddedSpeedPhrase : Str := "30 ft, fly 10 ft ".toList

/-- The six canonical ability names, each with its code. -/
def abilities : List (Str × Str) :=
  [("Strength".toList, "STR".toList), ("Dexterity".toList, "DEX".toList),
   ("Constitution".toList, "CON".toList), ("Intelligence".toList, "INT".toList),
   ("Wisdom".toList, "WIS".toList), ("Charisma".toList, "CHA".toList)]

/-- The row has at least 3 cells and its cell 0 is exactly `canon`. -/
def rowNamedExactly (canon : Str) (cells : List Str) : Bool :=
  decide (3 ≤ cells.length) && decide (cells.getD 0 [] = canon)

/-- The row has at least 3 cells and its cell 0, trimmed, is `canon`. -/
def rowNamed (canon : Str) (cells : List Str) : Bool :=
  decide (3 ≤ cells.length) && decide (trimSpace (cells.getD 0 []) = canon)

/-- The display string "<score trimmed> (<bonus trimmed>)" of a row. -/
def rowValue (cells : List Str) : Str :=
  trimSpace (cells.getD 1 []) ++ " (".toList ++ trimSpace (cells.getD 2 []) ++ ")".toList

/-- The last row of the table that satisfies `p`. -/
def lastRow (p : List Str → Bool) (rows : List (List Str)) : Option (List Str) :=
  (rows.filter p).getLast?

/-- The table of the worked example of the specification. -/
def exampleRows : List (List Str) :=
  [["Strength".toList, "18".toList, "+4".toList],
   ["Dexterity".toList, "14".toList, "+2".toList],
   ["Bogus".toList, "1".toList, "1".toList]]

/-- A table whose only row names its ability with a blank in front. -/
def paddedRows : List (List Str) := [[" Strength".toList, "18".toList, "+4".toList]]

/-- The text of all the paragraphs the description collects from `lines`: each
trimmed line followed by two newline characters, in order. -/
def paragraphs : List Str → Str
  | [] => []
  | line :: rest => (trimSpace line ++ "\n\n".toList) ++ paragraphs rest

/-- The value a label rule stores for the trimmed line `text`: the text after
the label, trimmed, when the label is a prefix of `text`, and `text` whole
otherwise. -/
def labelStripped (label text : Str) : Str :=
  if hasPrefix text label = true then trimSpace (text.drop label.length) else text

/-- Some substring of `text` has the shape: word characters, a space,
"beast,", a space, word characters. -/
def HasBeastShape (text : Str) : Prop :=
  ∃ pre w w' post : Str, text = pre ++ w ++ " beast, ".toList ++ w' ++ post
    ∧ w ≠ [] ∧ w' ≠ [] ∧ (∀ c ∈ w, isWord c = true) ∧ (∀ c ∈ w', isWord c = true)

/-- The line of the worked example that names a beast without the pattern. -/
def fearsomeLine : Str := "A fearsome beast.".toList

theorem hasPrefix_iff (s p : Str) : hasPrefix s p = true ↔ ∃ r, s = p ++ r := by
  induction p generalizing s with
  | nil => simp [hasPrefix]
  | cons a p ih =>
    cases s with
    | nil => simp [hasPrefix]
    | cons c cs =>
      simp only [hasPrefix, Bool.and_eq_true, decide_eq_true_eq, ih, List.cons_append,
        List.cons.injEq]
      constructor
      · rintro ⟨h, r, hr⟩
        exact ⟨r, h, hr⟩
      · rintro ⟨r, h, hr⟩
        exact ⟨h, r, hr⟩

theorem contains_iff (s sub : Str) :
    contains s sub = true ↔ ∃ pre post, s = pre ++ sub ++ post := by
  induction s with
  | nil =>
    simp only [contains, hasPrefix_iff]
    constructor
    · rintro ⟨r, hr⟩
      exact ⟨[], r, by simpa using hr⟩
    · rintro ⟨pre, post, h⟩
      have h1 : pre ++ sub ++ post = [] := h.symm
      simp only [List.append_eq_nil] at h1
      exact ⟨[], by simp [h1.1.2]⟩
  | cons c cs ih =>
    simp only [contains, Bool.or_eq_true, hasPrefix_iff, ih]
    constructor
    · rintro (⟨r, hr⟩ | ⟨pre, post, h⟩)
      · exact ⟨[], r, by simpa using hr⟩
      · exact ⟨c :: pre, post, by simp [h]⟩
    · rintro ⟨pre, post, h⟩
      cases pre with
      | nil => exact Or.inl ⟨post, by simpa using h⟩
      | cons a pre =>
        simp only [List.cons_append, List.cons.injEq] at h
        exact Or.inr ⟨pre, post, h.2⟩

theorem contains_map (f : Char → Char) (s sub : Str) (h : contains s sub = true) :
    contains (s.map f) (sub.map f) = true := by
  rw [contains_iff] at h ⊢
  obtain ⟨pre, post, rfl⟩ := h
  exact ⟨pre.map f, post.map f, by simp⟩

theorem hasPrefix_map (f : Char → Char) (s p : Str) (h : hasPrefix s p = true) :
    hasPrefix (s.map f) (p.map f) = true := by
  rw [hasPrefix_iff] at h ⊢
  obtain ⟨r, rfl⟩ := h
  exact ⟨r.map f, by simp⟩

theorem contains_of_hasPrefix (s p : Str) (h : hasPrefix s p = true) :
    contains s p = true := by
  rw [hasPrefix_iff] at h
  rw [contains_iff]
  obtain ⟨r, rfl⟩ := h
  exact ⟨[], r, by simp⟩

theorem mem_of_contains_singleton (s : Str) (c : Char) :
    contains s [c] = true ↔ c ∈ s := by
  rw [contains_iff]
  constructor
  · rintro ⟨pre, post, rfl⟩
    simp
  · intro h
    obtain ⟨pre, post, rfl⟩ := List.append_of_mem h
    exact ⟨pre, post, by simp⟩

/-- A text in which a label occurs is not a section header, when the
lower-cased label occurs in neither header word. -/
theorem not_header_of_contains (caseTable : Char → Char) (text label : Str)
    (h : contains text label = true)
    (ha : contains "actions".toList (toLower caseTable label) = false)
    (hd : contains "description".toList (toLower caseTable label) = false) :
    toLower caseTable text ≠ "actions".toList ∧
      toLower caseTable text ≠ "description".toList := by
  have hm := contains_map (lowerRune caseTable) text label h
  constructor
  · intro e
    unfold toLower at e ha
    rw [e, ha] at hm
    exact Bool.noConfusion hm
  · intro e
    unfold toLower at e hd
    rw [e, hd] at hm
    exact Bool.noConfusion hm

theorem ne_nil_of_contains (text label : Str) (h : contains text label = true)
    (hl : label ≠ []) : text ≠ [] := by
  rintro rfl
  cases label with
  | nil => exact hl rfl
  | cons a l => simp [contains, hasPrefix] at h

/-! ## Lemmas on maps -/

theorem mapGet_mapSet (m : StrMap) (k v k' : Str) :
    mapGet (mapSet m k v) k' = if k = k' then some v else mapGet m k' := by
  induction m with
  | nil => simp [mapSet, mapGet]
  | cons e rest ih =>
    obtain ⟨a, b⟩ := e
    by_cases hak : a = k
    · subst hak
      by_cases hk : a = k' <;> simp [mapSet, mapGet, hk]
    · by_cases hk : k = k'
      · subst hk
        simp [mapSet, mapGet, hak, ih]
      · simp only [mapSet, if_neg hak, mapGet, ih, if_neg hk]

theorem mapGet_mapSet_self (m : StrMap) (k v : Str) :
    mapGet (mapSet m k v) k = some v := by
  simp [mapGet_mapSet]

theorem mapGet_mapSet_of_ne (m : StrMap) (k v k' : Str) (h : k' ≠ k) :
    mapGet (mapSet m k v) k' = mapGet m k' := by
  rw [mapGet_mapSet, if_neg (fun e => h e.symm)]

theorem key_of_mem_mapSet (m : StrMap) (k v : Str) (e : Str × Str)
    (h : e ∈ mapSet m k v) : e.1 = k ∨ e ∈ m := by
  induction m with
  | nil =>
    simp only [mapSet, List.mem_singleton] at h
    exact Or.inl (by rw [h])
  | cons a rest ih =>
    obtain ⟨a1, a2⟩ := a
    by_cases hak : a1 = k
    · simp only [mapSet, hak, if_true, List.mem_cons] at h
      rcases h with h | h
      · exact Or.inl (by rw [h])
      · exact Or.inr (List.mem_cons_of_mem _ h)
    · simp only [mapSet, hak, if_false, List.mem_cons] at h
      rcases h with h | h
      · exact Or.inr (by rw [h]; exact List.mem_cons_self _ _)
      · rcases ih h with h' | h'
        · exact Or.inl h'
        · exact Or.inr (List.mem_cons_of_mem _ h')

theorem mapGet_eq_none_of_no_key (m : StrMap) (k : Str)
    (h : ∀ e ∈ m, e.1 ≠ k) : mapGet m k = none := by
  induction m with
  | nil => rfl
  | cons a rest ih =>
    obtain ⟨a1, a2⟩ := a
    have h1 : a1 ≠ k := h (a1, a2) (List.mem_cons_self _ _)
    simp only [mapGet, h1, if_false]
    exact ih (fun e he => h e (List.mem_cons_of_mem _ he))

/-! ## Lemmas on `split` -/

theorem split_head (sep : Char) (s : Str) :
    (split sep s)[0]? = some (s.takeWhile (fun ch => ch ≠ sep)) := by
  induction s with
  | nil => simp [split]
  | cons c cs ih =>
    by_cases h : c = sep
    · simp [split, h]
    · cases hs : split sep cs with
      | nil => simp [hs] at ih
      | cons p ps =>
        simp only [hs, List.getElem?_cons_zero, Option.some.injEq] at ih
        simp [split, h, hs, ih]

theorem splitN2_of_mem (sep : Char) (s : Str) (h : sep ∈ s) :
    splitN2 sep s =
      [s.takeWhile (fun ch => ch ≠ sep), (s.dropWhile (fun ch => ch ≠ sep)).drop 1] := by
  induction s with
  | nil => simp at h
  | cons c cs ih =>
    by_cases hc : c = sep
    · simp [splitN2, hc]
    · have hmem : sep ∈ cs := by
        rcases List.mem_cons.mp h with h' | h'
        · exact absurd h'.symm hc
        · exact h'
      simp [splitN2, hc, ih hmem]

theorem splitN2_of_not_mem (sep : Char) (s : Str) (h : sep ∉ s) :
    splitN2 sep s = [s] := by
  induction s with
  | nil => simp [splitN2]
  | cons c cs ih =>
    have hc : ¬ c = sep := fun e => h (by simp [e])
    have hcs : sep ∉ cs := fun e => h (List.mem_cons_of_mem _ e)
    simp [splitN2, hc, ih hcs]

/-- The `default` branch, in terms of the text before and after the first
period. -/
theorem defaultCase_eq (st : LoopState) (text : Str) (hd : st.isDescription = false) :
    defaultCase st text =
      if '.' ∈ text ∧ trimSpace (text.takeWhile (fun ch => ch ≠ '.')) ≠ "Source".toList then
        some { st with c := { st.c with Extra := (mapSet st.c.Extra
          (trimSpace (text.takeWhile (fun ch => ch ≠ '.')))
          (trimSpace ((text.dropWhile (fun ch => ch ≠ '.')).drop 1))) } }
      else some st := by
  unfold defaultCase
  by_cases hm : '.' ∈ text
  · have hcont : contains text ['.'] = true := (mem_of_contains_singleton text '.').mpr hm
    rw [if_neg (not_not.mpr hcont)]
    simp only [splitN2_of_mem '.' text hm, List.getElem?_cons_zero, List.getElem?_cons_succ]
    by_cases hn : trimSpace (text.takeWhile (fun ch => ch ≠ '.')) = "Source".toList
    · rw [if_neg (fun h => h.1 hn), if_neg (fun h => h.2 hn)]
    · rw [if_pos ⟨hn, by simp [hd]⟩, if_pos ⟨hm, hn⟩]
  · have hcont : ¬ contains text ['.'] = true := fun e =>
      hm ((mem_of_contains_singleton text '.').mp e)
    rw [if_pos hcont, if_neg (fun h => hm h.1)]

/-- The step on a line that is not empty, not a section header and not read
in description mode is the effect of the first content rule that applies. -/
theorem step_eq_firstRule (caseTable : Char → Char) (st : LoopState) (line : Str)
    (hne : trimSpace line ≠ [])
    (ha : toLower caseTable (trimSpace line) ≠ "actions".toList)
    (hdesc : toLower caseTable (trimSpace line) ≠ "description".toList)
    (hd : st.isDescription = false) :
    step caseTable st line = firstRule contentRules st (trimSpace line) := by
  unfold step contentRules
  simp only [firstRule]
  rw [if_neg hne, if_neg ha, if_neg hdesc, if_neg (by simp [hd])]
  rw [split_head, defaultCase_eq st _ hd]
  by_cases h1 : contains (trimSpace line) "Armor Class".toList = true
  · rw [if_pos h1, if_pos h1]
  rw [if_neg h1, if_neg h1]
  by_cases h2 : contains (trimSpace line) "Hit Points".toList = true
  · rw [if_pos h2, if_pos h2]
  rw [if_neg h2, if_neg h2]
  by_cases h3 : contains (trimSpace line) "Speed".toList = true
  · rw [if_pos h3, if_pos h3]
  rw [if_neg h3, if_neg h3]
  by_cases h4 : hasPrefix (trimSpace line) "Challenge".toList = true
  · rw [if_pos h4, if_pos h4]
    cases (fields (trimSpace line))[1]? <;> rfl
  rw [if_neg h4, if_neg h4]
  by_cases h5 : hasPrefix (trimSpace line) "Skills".toList = true
  · rw [if_pos h5, if_pos h5]
  rw [if_neg h5, if_neg h5]
  by_cases h6 : hasPrefix (trimSpace line) "Senses".toList = true
  · rw [if_pos h6, if_pos h6]
  rw [if_neg h6, if_neg h6]
  by_cases h7 : hasPrefix (trimSpace line) "Languages".toList = true
  · rw [if_pos h7, if_pos h7]
  rw [if_neg h7, if_neg h7]
  by_cases h8 : hasPrefix (trimSpace line) "Proficiency Bonus".toList = true
  · rw [if_pos h8, if_pos h8]
  rw [if_neg h8, if_neg h8]
  by_cases h9 : st.isActions = true ∨ contains (trimSpace line) "Attack:".toList = true
  · have h9' : (st.isActions || contains (trimSpace line) "Attack:".toList) = true := by
      simpa using h9
    rw [if_pos h9, if_pos h9']
  have h9' : ¬ (st.isActions || contains (trimSpace line) "Attack:".toList) = true := by
    simpa using h9
  rw [if_neg h9, if_neg h9']
  by_cases h10 : contains (trimSpace line) "beast".toList = true
  · rw [if_pos h10]
    by_cases h11 : beastMatch (trimSpace line) = true
    · have h11' : (contains (trimSpace line) "beast".toList && beastMatch (trimSpace line))
          = true := by rw [h10, h11]; rfl
      rw [if_pos h11, if_pos h11']
    · have h11' : ¬ (contains (trimSpace line) "beast".toList && beastMatch (trimSpace line))
          = true := by
        rw [Bool.and_eq_true]
        exact fun h => h11 h.2
      rw [if_neg h11, if_neg h11']
      rfl
  · have h10' : ¬ (contains (trimSpace line) "beast".toList && beastMatch (trimSpace line))
        = true := by
      rw [Bool.and_eq_true]
      exact fun h => h10 h.1
    rw [if_neg h10, if_neg h10']
    rfl

/-! ## The effect of one step -/

theorem firstRule_contentRules_effect (st st' : LoopState) (text : Str)
    (h : firstRule contentRules st text = some st') : StepEffect st.c st'.c text := by
  unfold contentRules at h
  simp only [firstRule] at h
  unfold StepEffect
  by_cases h1 : contains text "Armor Class".toList = true
  · rw [if_pos h1] at h
    cases h
    exact Or.inr (Or.inr (Or.inl ⟨_, rfl⟩))
  rw [if_neg h1] at h
  by_cases h2 : contains text "Hit Points".toList = true
  · rw [if_pos h2] at h
    cases h
    exact Or.inr (Or.inr (Or.inr (Or.inl ⟨_, rfl⟩)))
  rw [if_neg h2] at h
  by_cases h3 : contains text "Speed".toList = true
  · rw [if_pos h3] at h
    cases h
    exact Or.inr (Or.inr (Or.inr (Or.inr (Or.inl ⟨_, rfl⟩))))
  rw [if_neg h3] at h
  by_cases h4 : hasPrefix text "Challenge".toList = true
  · rw [if_pos h4] at h
    cases hf : (fields text)[1]? with
    | none => rw [hf] at h; exact Option.noConfusion h
    | some tok =>
      rw [hf] at h
      cases h
      exact Or.inr (Or.inr (Or.inr (Or.inr (Or.inr (Or.inl ⟨_, rfl⟩)))))
  rw [if_neg h4] at h
  by_cases h5 : hasPrefix text "Skills".toList = true
  · rw [if_pos h5] at h
    cases h
    exact Or.inr (Or.inr (Or.inr (Or.inr (Or.inr (Or.inr (Or.inl ⟨_, rfl⟩))))))
  rw [if_neg h5] at h
  by_cases h6 : hasPrefix text "Senses".toList = true
  · rw [if_pos h6] at h
    cases h
    exact Or.inr (Or.inr (Or.inr (Or.inr (Or.inr (Or.inr (Or.inr (Or.inl ⟨_, rfl⟩)))))))
  rw [if_neg h6] at h
  by_cases h7 : hasPrefix text "Languages".toList = true
  · rw [if_pos h7] at h
    cases h
    exact Or.inr (Or.inr (Or.inr (Or.inr (Or.inr (Or.inr (Or.inr (Or.inr (Or.inl ⟨_, rfl⟩))))))))
  rw [if_neg h7] at h
  by_cases h8 : hasPrefix text "Proficiency Bonus".toList = true
  · rw [if_pos h8] at h
    cases h
    exact Or.inr (Or.inr (Or.inr (Or.inr (Or.inr (Or.inr (Or.inr (Or.inr (Or.inr (Or.inl ⟨_, rfl⟩)))))))))
  rw [if_neg h8] at h
  by_cases h9 : (st.isActions || contains text "Attack:".toList) = true
  · rw [if_pos h9] at h
    cases h
    exact Or.inr (Or.inr (Or.inr (Or.inr (Or.inr (Or.inr (Or.inr (Or.inr (Or.inr (Or.inr (Or.inr (Or.inl ⟨_, rfl⟩)))))))))))
  rw [if_neg h9] at h
  by_cases h10 : (contains text "beast".toList && beastMatch text) = true
  · rw [if_pos h10] at h
    cases h
    exact Or.inr (Or.inr (Or.inr (Or.inr (Or.inr (Or.inr (Or.inr (Or.inr (Or.inr (Or.inr (Or.inl ⟨_, rfl⟩))))))))))
  rw [if_neg h10, if_pos trivial] at h
  by_cases h11 : '.' ∈ text ∧ trimSpace (text.takeWhile (fun ch => ch ≠ '.')) ≠ "Source".toList
  · rw [if_pos h11] at h
    cases h
    exact Or.inr (Or.inr (Or.inr (Or.inr (Or.inr (Or.inr (Or.inr (Or.inr (Or.inr (Or.inr (Or.inr (Or.inr (⟨_, h11.2, rfl⟩))))))))))))
  · rw [if_neg h11] at h
    cases h
    exact Or.inl rfl

/-- Every successful step has exactly one of the effects of `StepEffect`. -/
theorem step_effect (caseTable : Char → Char) (st st' : LoopState) (line : Str)
    (h : step caseTable st line = some st') : StepEffect st.c st'.c (trimSpace line) := by
  by_cases hne : trimSpace line = []
  · unfold step at h
    rw [if_pos hne] at h
    cases h
    exact Or.inl rfl
  by_cases ha : toLower caseTable (trimSpace line) = "actions".toList
  · unfold step at h
    rw [if_neg hne, if_pos ha] at h
    cases h
    exact Or.inl rfl
  by_cases hdesc : toLower caseTable (trimSpace line) = "description".toList
  · unfold step at h
    rw [if_neg hne, if_neg ha, if_pos hdesc] at h
    cases h
    exact Or.inl rfl
  by_cases hd : st.isDescription = true
  · unfold step at h
    rw [if_neg hne, if_neg ha, if_neg hdesc, if_pos hd] at h
    cases h
    exact Or.inr (Or.inl ⟨_, rfl⟩)
  · have hd' : st.isDescription = false := by simpa using hd
    rw [step_eq_firstRule caseTable st line hne ha hdesc hd'] at h
    exact firstRule_contentRules_effect st st' _ h

/-! ## Trait lines and the `Extra` map -/

/-- A line that no rule before the trait rule takes, that has a period and
whose name is not "Source", is stored in `Extra`. -/
theorem step_trait (caseTable : Char → Char) (st : LoopState) (line : Str)
    (hd : st.isDescription = false) (hact : st.isActions = false)
    (h1 : contains (trimSpace line) "Armor Class".toList = false)
    (h2 : contains (trimSpace line) "Hit Points".toList = false)
    (h3 : contains (trimSpace line) "Speed".toList = false)
    (h4 : hasPrefix (trimSpace line) "Challenge".toList = false)
    (h5 : hasPrefix (trimSpace line) "Skills".toList = false)
    (h6 : hasPrefix (trimSpace line) "Senses".toList = false)
    (h7 : hasPrefix (trimSpace line) "Languages".toList = false)
    (h8 : hasPrefix (trimSpace line) "Proficiency Bonus".toList = false)
    (h9 : contains (trimSpace line) "Attack:".toList = false)
    (h10 : contains (trimSpace line) "beast".toList = false)
    (hper : '.' ∈ trimSpace line)
    (hname : trimSpace ((trimSpace line).takeWhile (fun ch => ch ≠ '.')) ≠ "Source".toList) :
    step caseTable st line
      = some { st with c := { st.c with Extra := (mapSet st.c.Extra
          (trimSpace ((trimSpace line).takeWhile (fun ch => ch ≠ '.')))
          (trimSpace (((trimSpace line).dropWhile (fun ch => ch ≠ '.')).drop 1))) } } := by
  have hc : contains (trimSpace line) ['.'] = true :=
    (mem_of_contains_singleton _ _).mpr hper
  have hne := ne_nil_of_contains _ _ hc (by decide)
  have hh := not_header_of_contains caseTable _ _ hc (by rfl) (by rfl)
  rw [step_eq_firstRule caseTable st line hne hh.1 hh.2 hd]
  unfold contentRules
  simp only [firstRule]
  rw [if_neg (by rw [h1]; exact Bool.false_ne_true),
    if_neg (by rw [h2]; exact Bool.false_ne_true),
    if_neg (by rw [h3]; exact Bool.false_ne_true),
    if_neg (by rw [h4]; exact Bool.false_ne_true),
    if_neg (by rw [h5]; exact Bool.false_ne_true),
    if_neg (by rw [h6]; exact Bool.false_ne_true),
    if_neg (by rw [h7]; exact Bool.false_ne_true),
    if_neg (by rw [h8]; exact Bool.false_ne_true),
    if_neg (by rw [hact, h9]; exact Bool.false_ne_true),
    if_neg (by rw [h10]; exact Bool.false_ne_true),
    if_pos trivial, if_pos ⟨hper, hname⟩]

/-- The `Extra` map after a successful step: unchanged, or one key other than
"Source" set, and then the key is the trimmed text before the first period. -/
theorem step_extra (caseTable : Char → Char) (st st' : LoopState) (line : Str)
    (h : step caseTable st line = some st') :
    st'.c.Extra = st.c.Extra
    ∨ ∃ v, trimSpace ((trimSpace line).takeWhile (fun ch => ch ≠ '.')) ≠ "Source".toList
        ∧ st'.c.Extra = mapSet st.c.Extra
            (trimSpace ((trimSpace line).takeWhile (fun ch => ch ≠ '.'))) v := by
  have he := step_effect caseTable st st' line h
  unfold StepEffect at he
  rcases he with he | ⟨s, he⟩ | ⟨v, he⟩ | ⟨v, he⟩ | ⟨v, he⟩ | ⟨v, he⟩ | ⟨v, he⟩ | ⟨v, he⟩
    | ⟨v, he⟩ | ⟨v, he⟩ | ⟨v, he⟩ | ⟨a, he⟩ | ⟨v, hn, he⟩
  case inr.inr.inr.inr.inr.inr.inr.inr.inr.inr.inr.inr =>
    exact Or.inr ⟨v, hn, by rw [he]⟩
  all_goals exact Or.inl (by rw [he])

theorem step_no_source_key (caseTable : Char → Char) (st st' : LoopState) (line : Str)
    (h : step caseTable st line = some st')
    (hinv : ∀ e ∈ st.c.Extra, e.1 ≠ "Source".toList) :
    ∀ e ∈ st'.c.Extra, e.1 ≠ "Source".toList := by
  rcases step_extra caseTable st st' line h with he | ⟨v, hn, he⟩
  · rw [he]
    exact hinv
  · rw [he]
    intro e hmem
    rcases key_of_mem_mapSet _ _ _ _ hmem with hk | hk
    · rw [hk]
      exact hn
    · exact hinv e hk

theorem classifyLines_no_source_key (caseTable : Char → Char) (lines : List Str)
    (st st' : LoopState) (h : classifyLines caseTable st lines = some st')
    (hinv : ∀ e ∈ st.c.Extra, e.1 ≠ "Source".toList) :
    ∀ e ∈ st'.c.Extra, e.1 ≠ "Source".toList := by
  induction lines generalizing st with
  | nil =>
    simp only [classifyLines, Option.some.injEq] at h
    subst h
    exact hinv
  | cons l ls ih =>
    simp only [classifyLines] at h
    cases hs : step caseTable st l with
    | none =>
      rw [hs] at h
      exact Option.noConfusion h
    | some st1 =>
      rw [hs] at h
      exact ih st1 h (step_no_source_key caseTable st st1 l hs hinv)

/-! ## Lemmas on the pattern `(\d+)\s*ft` -/

theorem isDigit_iff (c : Char) : isDigit c = true ↔ 48 ≤ c.toNat ∧ c.toNat ≤ 57 := by
  simp only [isDigit, Bool.and_eq_true, decide_eq_true_eq]

theorem not_isDigit_of_isSpace (c : Char) (h : isSpace c = true) : isDigit c = false := by
  simp only [isSpace, Bool.or_eq_true, decide_eq_true_eq, Bool.and_eq_true] at h
  have hd : ¬ (isDigit c = true) := by
    rw [isDigit_iff]
    omega
  simpa using hd

theorem not_isDigit_of_isReSpace (c : Char) (h : isReSpace c = true) : isDigit c = false := by
  simp only [isReSpace, Bool.or_eq_true, decide_eq_true_eq] at h
  have hd : ¬ (isDigit c = true) := by
    rw [isDigit_iff]
    omega
  simpa using hd

theorem ne_of_isSpace (c a : Char) (h : isSpace c = true) (ha : isSpace a = false) : c ≠ a := by
  rintro rfl
  rw [h] at ha
  exact Bool.noConfusion ha

theorem takeWhile_append_of_none (p : Char → Bool) (x ws : Str)
    (h : ∀ c ∈ ws, p c = false) : (x ++ ws).takeWhile p = x.takeWhile p := by
  induction x with
  | nil =>
    cases ws with
    | nil => rfl
    | cons a l => simp [List.takeWhile, h a (List.mem_cons_self _ _)]
  | cons c cs ih =>
    by_cases hc : p c = true
    · simp [List.takeWhile, hc, ih]
    · simp [List.takeWhile, hc]

theorem dropWhile_append_of_none (p : Char → Bool) (x ws : Str)
    (h : ∀ c ∈ ws, p c = false) : (x ++ ws).dropWhile p = x.dropWhile p ++ ws := by
  induction x with
  | nil =>
    cases ws with
    | nil => rfl
    | cons a l => simp [List.dropWhile, h a (List.mem_cons_self _ _)]
  | cons c cs ih =>
    by_cases hc : p c = true
    · simp [List.dropWhile, hc, ih]
    · simp [List.dropWhile, hc]

theorem takeWhile_append_all (p : Char → Bool) (d rest : Str)
    (hd : ∀ c ∈ d, p c = true) (hr : ∀ c, rest.head? = some c → p c = false) :
    (d ++ rest).takeWhile p = d := by
  induction d with
  | nil =>
    cases rest with
    | nil => rfl
    | cons a l => simp [List.takeWhile, hr a rfl]
  | cons c cs ih =>
    have hc : p c = true := hd c (List.mem_cons_self _ _)
    have ih' := ih (fun x hx => hd x (List.mem_cons_of_mem _ hx))
    simp [List.takeWhile, hc, ih']

theorem dropWhile_append_all (p : Char → Bool) (d rest : Str)
    (hd : ∀ c ∈ d, p c = true) (hr : ∀ c, rest.head? = some c → p c = false) :
    (d ++ rest).dropWhile p = rest := by
  induction d with
  | nil =>
    cases rest with
    | nil => rfl
    | cons a l => simp [List.dropWhile, hr a rfl]
  | cons c cs ih =>
    have hc : p c = true := hd c (List.mem_cons_self _ _)
    have ih' := ih (fun x hx => hd x (List.mem_cons_of_mem _ hx))
    simp [List.dropWhile, hc, ih']

theorem mem_takeWhile_true (p : Char → Bool) (s : Str) :
    ∀ c ∈ s.takeWhile p, p c = true := by
  induction s with
  | nil => simp
  | cons a l ih =>
    intro c hc
    by_cases ha : p a = true
    · simp only [List.takeWhile, ha, List.mem_cons] at hc
      rcases hc with rfl | hc
      · exact ha
      · exact ih c hc
    · simp [List.takeWhile, ha] at hc

theorem mem_of_mem_dropWhile (p : Char → Bool) (s : Str) :
    ∀ c ∈ s.dropWhile p, c ∈ s := by
  induction s with
  | nil => simp
  | cons a l ih =>
    intro c hc
    by_cases ha : p a = true
    · simp only [List.dropWhile, ha] at hc
      exact List.mem_cons_of_mem _ (ih c hc)
    · simp only [List.dropWhile, ha] at hc
      exact hc

/-- Soundness of `ftMatchAt`: a match gives digits, spaces and "ft" at the
head of the text. -/
theorem ftMatchAt_sound (s d : Str) (h : ftMatchAt s = some d) :
    ∃ ws post, s = d ++ ws ++ ['f', 't'] ++ post ∧ d ≠ [] ∧ (∀ c ∈ d, isDigit c = true)
      ∧ (∀ c ∈ ws, isReSpace c = true) := by
  unfold ftMatchAt at h
  simp only at h
  split_ifs at h with hc
  cases h
  obtain ⟨hne, hp⟩ := hc
  obtain ⟨post, hpost⟩ := (hasPrefix_iff _ _).mp hp
  refine ⟨(s.dropWhile isDigit).takeWhile isReSpace, post, ?_, hne,
    mem_takeWhile_true _ _, mem_takeWhile_true _ _⟩
  have e1 : s = s.takeWhile isDigit ++ s.dropWhile isDigit :=
    (List.takeWhile_append_dropWhile isDigit s).symm
  have e2 : s.dropWhile isDigit = (s.dropWhile isDigit).takeWhile isReSpace
      ++ (s.dropWhile isDigit).dropWhile isReSpace :=
    (List.takeWhile_append_dropWhile isReSpace _).symm
  rw [hpost] at e2
  calc s = s.takeWhile isDigit ++ s.dropWhile isDigit := e1
    _ = s.takeWhile isDigit ++ ((s.dropWhile isDigit).takeWhile isReSpace
          ++ (['f', 't'] ++ post)) := by rw [← e2]
    _ = _ := by simp only [List.append_assoc]

/-- Completeness of `ftMatchAt`: digits, spaces and "ft" at the head of the
text are matched, and the group captures exactly the digits. -/
theorem ftMatchAt_complete (d ws post : Str) (hne : d ≠ [])
    (hd : ∀ c ∈ d, isDigit c = true) (hws : ∀ c ∈ ws, isReSpace c = true) :
    ftMatchAt (d ++ ws ++ ['f', 't'] ++ post) = some d := by
  have hhead : ∀ c, (ws ++ (['f', 't'] ++ post)).head? = some c → isDigit c = false := by
    intro c hc
    cases ws with
    | nil =>
      simp only [List.nil_append, List.cons_append, List.head?_cons, Option.some.injEq] at hc
      subst hc
      decide
    | cons a l =>
      simp only [List.cons_append, List.head?_cons, Option.some.injEq] at hc
      subst hc
      exact not_isDigit_of_isReSpace _ (hws _ (List.mem_cons_self _ _))
  have hhead2 : ∀ c, (['f', 't'] ++ post).head? = some c → isReSpace c = false := by
    intro c hc
    simp only [List.cons_append, List.head?_cons, Option.some.injEq] at hc
    subst hc
    decide
  have e : d ++ ws ++ ['f', 't'] ++ post = d ++ (ws ++ (['f', 't'] ++ post)) := by
    simp only [List.append_assoc]
  unfold ftMatchAt
  simp only
  rw [e, takeWhile_append_all _ _ _ hd hhead, dropWhile_append_all _ _ _ hd hhead,
    dropWhile_append_all _ _ _ hws hhead2]
  rw [if_pos ⟨hne, by simp [hasPrefix]⟩]

theorem ftMatchAt_cons_of_not_digit (c : Char) (cs : Str) (h : isDigit c = false) :
    ftMatchAt (c :: cs) = none := by
  unfold ftMatchAt
  simp [List.takeWhile, h]

theorem findFt_cons_of_not_digit (c : Char) (cs : Str) (h : isDigit c = false) :
    findFt (c :: cs) = findFt cs := by
  simp only [findFt, ftMatchAt_cons_of_not_digit c cs h]

theorem findFt_of_no_digit (s : Str) (h : ∀ c ∈ s, isDigit c = false) : findFt s = none := by
  induction s with
  | nil => rfl
  | cons c cs ih =>
    rw [findFt_cons_of_not_digit c cs (h c (List.mem_cons_self _ _))]
    exact ih (fun x hx => h x (List.mem_cons_of_mem _ hx))

/-- A text without a decimal integer before "ft" has no match. -/
theorem findFt_eq_none (s : Str) (h : ∀ pre d ws post, ¬ FtOccurrence s pre d ws post) :
    findFt s = none := by
  induction s with
  | nil => rfl
  | cons c cs ih =>
    have hm : ftMatchAt (c :: cs) = none := by
      cases hm : ftMatchAt (c :: cs) with
      | none => rfl
      | some d =>
        obtain ⟨ws, post, e, hne, hd, hws⟩ := ftMatchAt_sound _ _ hm
        exact absurd ⟨by simpa using e, hne, hd, hws⟩ (h [] d ws post)
    simp only [findFt, hm]
    apply ih
    rintro pre d ws post ⟨e, hne, hd, hws⟩
    exact h (c :: pre) d ws post ⟨by simp [e], hne, hd, hws⟩

/-- The match found is the leftmost occurrence, and the group captures its
integer. -/
theorem findFt_first (p pre d ws post : Str) (h : FirstFtOccurrence p pre d ws post) :
    findFt p = some d := by
  induction pre generalizing p with
  | nil =>
    obtain ⟨⟨e, hne, hd, hws⟩, _⟩ := h
    have hm := ftMatchAt_complete d ws post hne hd hws
    simp only [List.nil_append] at e
    rw [← e] at hm
    cases p with
    | nil =>
      cases d with
      | nil => exact absurd rfl hne
      | cons a l => simp at e
    | cons c cs => simp only [findFt, hm]
  | cons a pre ih =>
    obtain ⟨⟨e, hne, hd, hws⟩, hmin⟩ := h
    cases p with
    | nil => simp at e
    | cons c cs =>
      simp only [List.cons_append, List.cons.injEq] at e
      obtain ⟨hca, ecs⟩ := e
      have hm : ftMatchAt (c :: cs) = none := by
        cases hm : ftMatchAt (c :: cs) with
        | none => rfl
        | some d' =>
          obtain ⟨ws', post', e', hne', hd', hws'⟩ := ftMatchAt_sound _ _ hm
          have := hmin [] d' ws' post' ⟨by simpa using e', hne', hd', hws'⟩
          simp at this
      simp only [findFt, hm]
      apply ih
      refine ⟨⟨ecs, hne, hd, hws⟩, ?_⟩
      rintro pre' d' ws' post' ⟨e', hne', hd', hws'⟩
      have := hmin (c :: pre') d' ws' post' ⟨by simp [e'], hne', hd', hws'⟩
      simpa using this

/-- What the pattern finds is the integer of the leftmost occurrence. -/
theorem findFt_some_first (p d : Str) (h : findFt p = some d) :
    ∃ pre ws post, FirstFtOccurrence p pre d ws post := by
  induction p with
  | nil => exact Option.noConfusion h
  | cons c cs ih =>
    cases hm : ftMatchAt (c :: cs) with
    | some d' =>
      simp only [findFt, hm, Option.some.injEq] at h
      subst h
      obtain ⟨ws, post, e, hne, hd, hws⟩ := ftMatchAt_sound _ _ hm
      exact ⟨[], ws, post, ⟨by simpa using e, hne, hd, hws⟩, fun _ _ _ _ _ => Nat.zero_le _⟩
    | none =>
      simp only [findFt, hm] at h
      obtain ⟨pre, ws, post, ⟨e, hne, hd, hws⟩, hmin⟩ := ih h
      refine ⟨c :: pre, ws, post, ⟨by simp [e], hne, hd, hws⟩, ?_⟩
      rintro pre' d' ws' post' ⟨e', hne', hd', hws'⟩
      cases pre' with
      | nil =>
        simp only [List.nil_append] at e'
        have hc := ftMatchAt_complete d' ws' post' hne' hd' hws'
        rw [← e', hm] at hc
        exact Option.noConfusion hc
      | cons a pre' =>
        simp only [List.cons_append, List.cons.injEq] at e'
        have := hmin pre' d' ws' post' ⟨e'.2, hne', hd', hws'⟩
        simpa using this

/-- A text with an occurrence has a match. -/
theorem findFt_isSome_of_occurrence (p pre d ws post : Str)
    (h : FtOccurrence p pre d ws post) : ∃ d', findFt p = some d' := by
  induction pre generalizing p with
  | nil =>
    obtain ⟨e, hne, hd, hws⟩ := h
    have hm := ftMatchAt_complete d ws post hne hd hws
    simp only [List.nil_append] at e
    rw [← e] at hm
    cases p with
    | nil =>
      cases d with
      | nil => exact absurd rfl hne
      | cons a l => simp at e
    | cons c cs => exact ⟨d, by simp only [findFt, hm]⟩
  | cons a pre ih =>
    obtain ⟨e, hne, hd, hws⟩ := h
    cases p with
    | nil => simp at e
    | cons c cs =>
      simp only [List.cons_append, List.cons.injEq] at e
      cases hm : ftMatchAt (c :: cs) with
      | some d' => exact ⟨d', by simp only [findFt, hm]⟩
      | none =>
        obtain ⟨d', hd'⟩ := ih cs ⟨e.2, hne, hd, hws⟩
        exact ⟨d', by simp only [findFt, hm, hd']⟩

/-- Among the occurrences of a text there is a leftmost one. -/
theorem exists_first_of_occurrence (p pre d ws post : Str)
    (h : FtOccurrence p pre d ws post) :
    ∃ pre0 d0 ws0 post0, FirstFtOccurrence p pre0 d0 ws0 post0 := by
  obtain ⟨d', hd'⟩ := findFt_isSome_of_occurrence p pre d ws post h
  obtain ⟨pre0, ws0, post0, h0⟩ := findFt_some_first p d' hd'
  exact ⟨pre0, d', ws0, post0, h0⟩

theorem hasPrefix_ft_append (z ws : Str) (hf : ∀ c ∈ ws, c ≠ 'f') (ht : ∀ c ∈ ws, c ≠ 't') :
    hasPrefix (z ++ ws) ['f', 't'] = hasPrefix z ['f', 't'] := by
  cases z with
  | nil =>
    cases ws with
    | nil => rfl
    | cons a l => simp [hasPrefix, hf a (List.mem_cons_self _ _)]
  | cons c z =>
    cases z with
    | nil =>
      cases ws with
      | nil => rfl
      | cons a l => simp [hasPrefix, ht a (List.mem_cons_self _ _)]
    | cons c2 z => simp [hasPrefix]

theorem hasPrefix_ft_dropWhile_append (q : Char → Bool) (y ws : Str)
    (hf : ∀ c ∈ ws, c ≠ 'f') (ht : ∀ c ∈ ws, c ≠ 't') :
    hasPrefix ((y ++ ws).dropWhile q) ['f', 't'] = hasPrefix (y.dropWhile q) ['f', 't'] := by
  induction y with
  | nil =>
    have h1 := hasPrefix_ft_append [] (ws.dropWhile q)
      (fun c hc => hf c (mem_of_mem_dropWhile q ws c hc))
      (fun c hc => ht c (mem_of_mem_dropWhile q ws c hc))
    simpa using h1
  | cons c cs ih =>
    by_cases hc : q c = true
    · simp only [List.cons_append, List.dropWhile, hc]
      exact ih
    · simp only [List.cons_append, List.dropWhile, hc]
      exact hasPrefix_ft_append (c :: cs) ws hf ht

/-- Trailing white space does not change a match at the head. -/
theorem ftMatchAt_append_spaces (x ws : Str) (h : ∀ c ∈ ws, isSpace c = true) :
    ftMatchAt (x ++ ws) = ftMatchAt x := by
  have hnd : ∀ c ∈ ws, isDigit c = false := fun c hc => not_isDigit_of_isSpace c (h c hc)
  have hf : ∀ c ∈ ws, c ≠ 'f' := fun c hc => ne_of_isSpace c 'f' (h c hc) (by decide)
  have ht : ∀ c ∈ ws, c ≠ 't' := fun c hc => ne_of_isSpace c 't' (h c hc) (by decide)
  unfold ftMatchAt
  simp only
  rw [takeWhile_append_of_none _ _ _ hnd, dropWhile_append_of_none _ _ _ hnd,
    hasPrefix_ft_dropWhile_append _ _ _ hf ht]

theorem findFt_append_spaces (x ws : Str) (h : ∀ c ∈ ws, isSpace c = true) :
    findFt (x ++ ws) = findFt x := by
  induction x with
  | nil =>
    simp only [List.nil_append]
    rw [findFt_of_no_digit ws (fun c hc => not_isDigit_of_isSpace c (h c hc))]
    rfl
  | cons c cs ih =>
    have hm := ftMatchAt_append_spaces (c :: cs) ws h
    simp only [List.cons_append] at hm
    simp only [List.cons_append, findFt, List.append_eq, hm, ih]

theorem findFt_dropWhile_isSpace (s : Str) : findFt (s.dropWhile isSpace) = findFt s := by
  induction s with
  | nil => rfl
  | cons c cs ih =>
    by_cases hc : isSpace c = true
    · simp only [List.dropWhile, hc]
      rw [ih, findFt_cons_of_not_digit c cs (not_isDigit_of_isSpace c hc)]
    · simp only [List.dropWhile, hc]

theorem findFt_trimSpace (s : Str) : findFt (trimSpace s) = findFt s := by
  unfold trimSpace
  have e : (s.dropWhile isSpace) =
      ((s.dropWhile isSpace).reverse.dropWhile isSpace).reverse
        ++ ((s.dropWhile isSpace).reverse.takeWhile isSpace).reverse := by
    rw [← List.reverse_append, List.takeWhile_append_dropWhile, List.reverse_reverse]
  have hsp : ∀ c ∈ ((s.dropWhile isSpace).reverse.takeWhile isSpace).reverse,
      isSpace c = true := by
    intro c hc
    exact mem_takeWhile_true _ _ c (List.mem_reverse.mp hc)
  have h2 := findFt_append_spaces
    ((s.dropWhile isSpace).reverse.dropWhile isSpace).reverse _ hsp
  rw [← e] at h2
  rw [← h2, findFt_dropWhile_isSpace]

theorem findFt_trimPrefix_speed (p : Str) :
    findFt (trimPrefix p "Speed".toList) = findFt p := by
  unfold trimPrefix
  by_cases h : hasPrefix p "Speed".toList = true
  · rw [if_pos h]
    obtain ⟨r, rfl⟩ := (hasPrefix_iff _ _).mp h
    have hlen : ("Speed".toList ++ r).drop "Speed".toList.length = r := by
      simp
    rw [hlen]
    show findFt r = findFt ('S' :: 'p' :: 'e' :: 'e' :: 'd' :: r)
    rw [findFt_cons_of_not_digit _ _ (by decide), findFt_cons_of_not_digit _ _ (by decide),
      findFt_cons_of_not_digit _ _ (by decide), findFt_cons_of_not_digit _ _ (by decide),
      findFt_cons_of_not_digit _ _ (by decide)]
  · rw [if_neg h]

/-- The pattern finds in the label-stripped, trimmed phrase what it finds in
the phrase. -/
theorem findFt_speedPhrase (p : Str) : findFt (speedPhrase p) = findFt p := by
  unfold speedPhrase
  rw [findFt_trimSpace, findFt_trimPrefix_speed]

/-! ## `extractSpeed` -/

theorem formatSpeed_eq_speedBase (v : Nat) : formatSpeed v = speedBase v := rfl

theorem extractSpeed_of_no_match (p : Str) (h : findFt p = none) :
    extractSpeed p = speedPhrase p := by
  have h' : findFt (trimSpace (trimPrefix p "Speed".toList)) = none := by
    rw [← h]
    exact findFt_speedPhrase p
  unfold extractSpeed
  simp only [h']
  rfl

theorem extractSpeed_of_match (p d : Str) (h : findFt p = some d)
    (hfit : digitsToNat d ≤ maxInt) :
    extractSpeed p = speedBase (digitsToNat d) ++
      (if ',' ∈ speedPhrase p then ',' :: afterFirst ',' (speedPhrase p) else []) := by
  have h' : findFt (trimSpace (trimPrefix p "Speed".toList)) = some d := by
    rw [← h]
    exact findFt_speedPhrase p
  have ha : atoi d = some (digitsToNat d) := by
    unfold atoi
    simp only [if_pos hfit]
  unfold extractSpeed
  simp only [h', ha, formatSpeed_eq_speedBase]
  by_cases hc : ',' ∈ speedPhrase p
  · have hcont : contains (trimSpace (trimPrefix p "Speed".toList)) [','] = true :=
      (mem_of_contains_singleton _ _).mpr hc
    have hsplit := splitN2_of_mem ',' (speedPhrase p) hc
    unfold speedPhrase at hsplit
    rw [if_pos hcont, hsplit, if_pos hc]
    simp [afterFirst, speedPhrase]
  · have hcont : ¬ contains (trimSpace (trimPrefix p "Speed".toList)) [','] = true :=
      fun e => hc ((mem_of_contains_singleton _ _).mp e)
    rw [if_neg hcont, if_neg hc]
    simp

/-! ## The ability-score table -/

theorem abilityKey_eq_iff (ab : Str × Str) (hab : ab ∈ abilities) (name : Str) :
    abilityKey name = ab.2 ↔ name = ab.1 := by
  simp only [abilities, List.mem_cons, List.mem_singleton, List.not_mem_nil, or_false] at hab
  unfold abilityKey
  rcases hab with rfl | rfl | rfl | rfl | rfl | rfl
  all_goals
    dsimp only
    split_ifs with h1 h2 h3 h4 h5 h6
    all_goals first
      | (subst_vars; decide)
      | (constructor
         · intro h; exact absurd h (by decide)
         · intro h; subst h; exact absurd rfl ‹_›)

theorem abilityKey_nil_or_code (name : Str) :
    abilityKey name = [] ∨ ∃ ab ∈ abilities, abilityKey name = ab.2 := by
  unfold abilityKey
  split_ifs
  · exact Or.inr ⟨("Strength".toList, "STR".toList), by decide, rfl⟩
  · exact Or.inr ⟨("Dexterity".toList, "DEX".toList), by decide, rfl⟩
  · exact Or.inr ⟨("Constitution".toList, "CON".toList), by decide, rfl⟩
  · exact Or.inr ⟨("Intelligence".toList, "INT".toList), by decide, rfl⟩
  · exact Or.inr ⟨("Wisdom".toList, "WIS".toList), by decide, rfl⟩
  · exact Or.inr ⟨("Charisma".toList, "CHA".toList), by decide, rfl⟩
  · exact Or.inl rfl

theorem code_ne_nil (ab : Str × Str) (hab : ab ∈ abilities) : ab.2 ≠ [] := by
  simp only [abilities, List.mem_cons, List.mem_singleton, List.not_mem_nil, or_false] at hab
  rcases hab with rfl | rfl | rfl | rfl | rfl | rfl <;> decide

/-- One row: the entry of a code is replaced when the row names its ability,
and kept otherwise. -/
theorem mapGet_statsRow (m : StrMap) (cells : List Str) (ab : Str × Str)
    (hab : ab ∈ abilities) :
    mapGet (statsRow m cells) ab.2
      = if rowNamed ab.1 cells = true then some (rowValue cells) else mapGet m ab.2 := by
  unfold statsRow rowNamed
  by_cases hlen : cells.length < 3
  · have h3 : ¬ 3 ≤ cells.length := by omega
    simp [hlen, h3]
  · have h3 : 3 ≤ cells.length := by omega
    rw [if_neg hlen]
    simp only [h3, decide_True, Bool.true_and, decide_eq_true_eq]
    by_cases hname : trimSpace (cells.getD 0 []) = ab.1
    · have hkey : abilityKey (trimSpace (cells.getD 0 [])) = ab.2 :=
        (abilityKey_eq_iff ab hab _).mpr hname
      have hne : abilityKey (trimSpace (cells.getD 0 [])) ≠ [] := by
        rw [hkey]
        exact code_ne_nil ab hab
      rw [if_pos hne, if_pos hname, hkey, mapGet_mapSet_self]
      rfl
    · have hkey : ¬ abilityKey (trimSpace (cells.getD 0 [])) = ab.2 := fun e =>
        hname ((abilityKey_eq_iff ab hab _).mp e)
      rw [if_neg hname]
      by_cases hne : abilityKey (trimSpace (cells.getD 0 [])) ≠ []
      · rw [if_pos hne, mapGet_mapSet_of_ne _ _ _ _ (fun e => hkey e.symm)]
      · rw [if_neg hne]

/-- One row never touches a key that is not one of the six codes. -/
theorem mapGet_statsRow_other (m : StrMap) (cells : List Str) (k : Str)
    (hk : ∀ ab ∈ abilities, k ≠ ab.2) : mapGet (statsRow m cells) k = mapGet m k := by
  unfold statsRow
  by_cases hlen : cells.length < 3
  · rw [if_pos hlen]
  · rw [if_neg hlen]
    simp only
    by_cases hne : abilityKey (trimSpace (cells.getD 0 [])) ≠ []
    · rw [if_pos hne]
      rcases abilityKey_nil_or_code (trimSpace (cells.getD 0 [])) with h0 | ⟨ab, hab, hcode⟩
      · exact absurd h0 hne
      · rw [mapGet_mapSet_of_ne]
        rw [hcode]
        exact hk ab hab
    · rw [if_neg hne]

theorem lastRow_cons (p : List Str → Bool) (r : List Str) (rs : List (List Str)) :
    lastRow p (r :: rs)
      = match lastRow p rs with
        | some x => some x
        | none => if p r = true then some r else none := by
  unfold lastRow
  by_cases hp : p r = true
  · rw [List.filter_cons_of_pos hp]
    cases hf : rs.filter p with
    | nil => simp [hp]
    | cons a l =>
      rw [List.getLast?_cons_cons]
      cases hg : (a :: l).getLast? with
      | none => simp at hg
      | some x => rfl
  · rw [List.filter_cons_of_neg hp]
    cases hf : (rs.filter p).getLast? <;> simp [hp]

theorem mapGet_extractStats (m : StrMap) (rows : List (List Str)) (ab : Str × Str)
    (hab : ab ∈ abilities) :
    mapGet (extractStats m rows) ab.2
      = match lastRow (rowNamed ab.1) rows with
        | some r => some (rowValue r)
        | none => mapGet m ab.2 := by
  induction rows generalizing m with
  | nil => rfl
  | cons r rs ih =>
    have e : extractStats m (r :: rs) = extractStats (statsRow m r) rs := rfl
    rw [e, ih, lastRow_cons, mapGet_statsRow m r ab hab]
    cases hl : lastRow (rowNamed ab.1) rs with
    | some x => rfl
    | none =>
      by_cases hp : rowNamed ab.1 r = true
      · simp only [hp, if_true]
      · simp only [hp]
        rfl

theorem mapGet_extractStats_other (m : StrMap) (rows : List (List Str)) (k : Str)
    (hk : ∀ ab ∈ abilities, k ≠ ab.2) : mapGet (extractStats m rows) k = mapGet m k := by
  induction rows generalizing m with
  | nil => rfl
  | cons r rs ih =>
    have e : extractStats m (r :: rs) = extractStats (statsRow m r) rs := rfl
    rw [e, ih, mapGet_statsRow_other m r k hk]

/-! ## Lemmas on the line-break replacement -/

theorem hasPrefix_length_le (s p : Str) (h : hasPrefix s p = true) : p.length ≤ s.length := by
  obtain ⟨r, rfl⟩ := (hasPrefix_iff s p).mp h
  simp

theorem firstRule_contentRules_flags (st st' : LoopState) (text : Str)
    (h : firstRule contentRules st text = some st') :
    st'.isDescription = st.isDescription ∧ st'.isActions = st.isActions := by
  unfold contentRules at h
  simp only [firstRule] at h
  by_cases h1 : contains text "Armor Class".toList = true
  · rw [if_pos h1] at h
    cases h
    exact ⟨rfl, rfl⟩
  rw [if_neg h1] at h
  by_cases h2 : contains text "Hit Points".toList = true
  · rw [if_pos h2] at h
    cases h
    exact ⟨rfl, rfl⟩
  rw [if_neg h2] at h
  by_cases h3 : contains text "Speed".toList = true
  · rw [if_pos h3] at h
    cases h
    exact ⟨rfl, rfl⟩
  rw [if_neg h3] at h
  by_cases h4 : hasPrefix text "Challenge".toList = true
  · rw [if_pos h4] at h
    cases hf : (fields text)[1]? with
    | none => rw [hf] at h; exact Option.noConfusion h
    | some tok =>
      rw [hf] at h
      cases h
      exact ⟨rfl, rfl⟩
  rw [if_neg h4] at h
  by_cases h5 : hasPrefix text "Skills".toList = true
  · rw [if_pos h5] at h
    cases h
    exact ⟨rfl, rfl⟩
  rw [if_neg h5] at h
  by_cases h6 : hasPrefix text "Senses".toList = true
  · rw [if_pos h6] at h
    cases h
    exact ⟨rfl, rfl⟩
  rw [if_neg h6] at h
  by_cases h7 : hasPrefix text "Languages".toList = true
  · rw [if_pos h7] at h
    cases h
    exact ⟨rfl, rfl⟩
  rw [if_neg h7] at h
  by_cases h8 : hasPrefix text "Proficiency Bonus".toList = true
  · rw [if_pos h8] at h
    cases h
    exact ⟨rfl, rfl⟩
  rw [if_neg h8] at h
  by_cases h9 : (st.isActions || contains text "Attack:".toList) = true
  · rw [if_pos h9] at h
    cases h
    exact ⟨rfl, rfl⟩
  rw [if_neg h9] at h
  by_cases h10 : (contains text "beast".toList && beastMatch text) = true
  · rw [if_pos h10] at h
    cases h
    exact ⟨rfl, rfl⟩
  rw [if_neg h10, if_pos trivial] at h
  by_cases h11 : '.' ∈ text ∧ trimSpace (text.takeWhile (fun ch => ch ≠ '.')) ≠ "Source".toList
  · rw [if_pos h11] at h
    cases h
    exact ⟨rfl, rfl⟩
  · rw [if_neg h11] at h
    cases h
    exact ⟨rfl, rfl⟩

/-- The flags after a successful step: as before, unless the line is a section
header, which sets them. -/
theorem step_flags (caseTable : Char → Char) (st st' : LoopState) (line : Str)
    (h : step caseTable st line = some st') :
    (st'.isDescription = st.isDescription ∧ st'.isActions = st.isActions)
    ∨ (toLower caseTable (trimSpace line) = "actions".toList
        ∧ st'.isDescription = false ∧ st'.isActions = true)
    ∨ (toLower caseTable (trimSpace line) = "description".toList
        ∧ st'.isDescription = true ∧ st'.isActions = false) := by
  by_cases hne : trimSpace line = []
  · unfold step at h
    rw [if_pos hne] at h
    cases h
    exact Or.inl ⟨rfl, rfl⟩
  by_cases ha : toLower caseTable (trimSpace line) = "actions".toList
  · unfold step at h
    rw [if_neg hne, if_pos ha] at h
    cases h
    exact Or.inr (Or.inl ⟨ha, rfl, rfl⟩)
  by_cases hdesc : toLower caseTable (trimSpace line) = "description".toList
  · unfold step at h
    rw [if_neg hne, if_neg ha, if_pos hdesc] at h
    cases h
    exact Or.inr (Or.inr ⟨hdesc, rfl, rfl⟩)
  by_cases hd : st.isDescription = true
  · unfold step at h
    rw [if_neg hne, if_neg ha, if_neg hdesc, if_pos hd] at h
    cases h
    exact Or.inl ⟨rfl, rfl⟩
  · have hd' : st.isDescription = false := by simpa using hd
    rw [step_eq_firstRule caseTable st line hne ha hdesc hd'] at h
    exact Or.inl (firstRule_contentRules_flags st st' _ h)

theorem step_exclusive (caseTable : Char → Char) (st st' : LoopState) (line : Str)
    (h : step caseTable st line = some st')
    (hinv : ¬ (st.isDescription = true ∧ st.isActions = true)) :
    ¬ (st'.isDescription = true ∧ st'.isActions = true) := by
  rcases step_flags caseTable st st' line h with ⟨h1, h2⟩ | ⟨_, h1, _⟩ | ⟨_, _, h2⟩
  · rw [h1, h2]
    exact hinv
  · rw [h1]
    exact fun e => Bool.noConfusion e.1
  · rw [h2]
    exact fun e => Bool.noConfusion e.2

theorem classifyLines_exclusive (caseTable : Char → Char) (lines : List Str)
    (st st' : LoopState) (h : classifyLines caseTable st lines = some st')
    (hinv : ¬ (st.isDescription = true ∧ st.isActions = true)) :
    ¬ (st'.isDescription = true ∧ st'.isActions = true) := by
  induction lines generalizing st with
  | nil =>
    simp only [classifyLines, Option.some.injEq] at h
    subst h
    exact hinv
  | cons l ls ih =>
    simp only [classifyLines] at h
    cases hs : step caseTable st l with
    | none =>
      rw [hs] at h
      exact Option.noConfusion h
    | some st1 =>
      rw [hs] at h
      exact ih st1 h (step_exclusive caseTable st st1 l hs hinv)

/-! ## Blank lines and description lines -/

theorem trimSpace_eq_nil_of_all_space (l : Str) (h : ∀ ch ∈ l, isSpace ch = true) :
    trimSpace l = [] := by
  have hd : l.dropWhile isSpace = [] := List.dropWhile_eq_nil_iff.mpr h
  unfold trimSpace
  rw [hd]
  rfl

theorem step_of_blank (caseTable : Char → Char) (st : LoopState) (line : Str)
    (h : trimSpace line = []) : step caseTable st line = some st := by
  unfold step
  rw [if_pos h]

theorem classifyLines_of_blank (caseTable : Char → Char) (st : LoopState) (lines : List Str)
    (h : ∀ l ∈ lines, trimSpace l = []) : classifyLines caseTable st lines = some st := by
  induction lines with
  | nil => rfl
  | cons l ls ih =>
    simp only [classifyLines, step_of_blank caseTable st l (h l (List.mem_cons_self _ _))]
    exact ih (fun x hx => h x (List.mem_cons_of_mem _ hx))

/-- In description mode a line that is neither empty nor a header is appended
to the description. -/
theorem step_in_description (caseTable : Char → Char) (st : LoopState) (line : Str)
    (hd : st.isDescription = true) (hne : trimSpace line ≠ [])
    (ha : toLower caseTable (trimSpace line) ≠ "actions".toList)
    (hdesc : toLower caseTable (trimSpace line) ≠ "description".toList) :
    step caseTable st line
      = some { st with c := { st.c with
          Description := st.c.Description ++ (trimSpace line ++ "\n\n".toList) } } := by
  unfold step
  rw [if_neg hne, if_neg ha, if_neg hdesc, if_pos hd]

theorem classifyLines_in_description (caseTable : Char → Char) (lines : List Str)
    (st : LoopState) (hd : st.isDescription = true)
    (h : ∀ l ∈ lines, trimSpace l ≠ [] ∧ toLower caseTable (trimSpace l) ≠ "actions".toList
      ∧ toLower caseTable (trimSpace l) ≠ "description".toList) :
    classifyLines caseTable st lines
      = some { st with c := { st.c with
          Description := st.c.Description ++ paragraphs lines } } := by
  induction lines generalizing st with
  | nil =>
    simp only [classifyLines, paragraphs, List.append_nil]
  | cons l ls ih =>
    obtain ⟨h1, h2, h3⟩ := h l (List.mem_cons_self _ _)
    simp only [classifyLines, step_in_description caseTable st l hd h1 h2 h3]
    have hrest := ih { st with c := { st.c with
      Description := st.c.Description ++ (trimSpace l ++ "\n\n".toList) } } hd
      (fun x hx => h x (List.mem_cons_of_mem _ hx))
    rw [hrest]
    simp only [paragraphs, List.append_assoc]

/-! ## Trimming twice, and the label rules -/

theorem dropWhile_dropWhile (p : Char → Bool) (s : Str) :
    (s.dropWhile p).dropWhile p = s.dropWhile p := by
  induction s with
  | nil => rfl
  | cons c cs ih =>
    by_cases hc : p c = true
    · simp only [List.dropWhile, hc]
      exact ih
    · simp only [List.dropWhile, hc]

theorem head_of_dropWhile_eq_self (p : Char → Bool) (a : Char) (t : Str)
    (h : (a :: t).dropWhile p = a :: t) : p a = false := by
  by_contra hcon
  have hpa : p a = true := by simpa using hcon
  simp only [List.dropWhile, hpa] at h
  have hlen := (List.dropWhile_sublist (l := t) p).length_le
  rw [h] at hlen
  simp at hlen

theorem dropWhile_prefix_eq_self (p : Char → Bool) (v w : Str)
    (h : (v ++ w).dropWhile p = v ++ w) : v.dropWhile p = v := by
  cases v with
  | nil => rfl
  | cons a v =>
    have ha := head_of_dropWhile_eq_self p a (v ++ w) h
    simp only [List.dropWhile, ha]

/-- Go `strings.TrimSpace` applied to a trimmed text gives it back. -/
theorem trimSpace_trimSpace (s : Str) : trimSpace (trimSpace s) = trimSpace s := by
  have hsplit : s.dropWhile isSpace = trimSpace s
      ++ ((s.dropWhile isSpace).reverse.takeWhile isSpace).reverse := by
    unfold trimSpace
    rw [← List.reverse_append, List.takeWhile_append_dropWhile, List.reverse_reverse]
  have hlead : (trimSpace s).dropWhile isSpace = trimSpace s := by
    apply dropWhile_prefix_eq_self isSpace (trimSpace s)
      ((s.dropWhile isSpace).reverse.takeWhile isSpace).reverse
    rw [← hsplit]
    exact dropWhile_dropWhile isSpace s
  have hrev : (trimSpace s).reverse = (s.dropWhile isSpace).reverse.dropWhile isSpace := by
    unfold trimSpace
    rw [List.reverse_reverse]
  have htrail : (trimSpace s).reverse.dropWhile isSpace = (trimSpace s).reverse := by
    rw [hrev]
    exact dropWhile_dropWhile isSpace _
  show (((trimSpace s).dropWhile isSpace).reverse.dropWhile isSpace).reverse = trimSpace s
  rw [hlead, htrail, List.reverse_reverse]

/-- The value `strings.TrimSpace(strings.TrimPrefix(text, label))` for a
trimmed `text`. -/
theorem trim_trimPrefix_eq (label line : Str) :
    trimSpace (trimPrefix (trimSpace line) label) = labelStripped label (trimSpace line) := by
  unfold trimPrefix labelStripped
  by_cases h : hasPrefix (trimSpace line) label = true
  · rw [if_pos h, if_pos h]
  · rw [if_neg h, if_neg h, trimSpace_trimSpace]

theorem labelStripped_of_hasPrefix (label text : Str) (h : hasPrefix text label = true) :
    labelStripped label text = trimSpace (text.drop label.length) := by
  unfold labelStripped
  rw [if_pos h]

/-- The step on a line that contains "Armor Class", outside description
mode. -/
theorem step_armorClass (caseTable : Char → Char) (st : LoopState) (line : Str)
    (hd : st.isDescription = false)
    (h : contains (trimSpace line) "Armor Class".toList = true) :
    step caseTable st line = some { st with c := { st.c with
      AC := labelStripped "Armor Class".toList (trimSpace line) } } := by
  have hne := ne_nil_of_contains _ _ h (by decide)
  have hh := not_header_of_contains caseTable _ _ h (by rfl) (by rfl)
  rw [step_eq_firstRule caseTable st line hne hh.1 hh.2 hd, ← trim_trimPrefix_eq]
  unfold contentRules
  simp only [firstRule]
  rw [if_pos h]

/-- The step on a line that contains "Hit Points" and not "Armor Class",
outside description mode. -/
theorem step_hitPoints (caseTable : Char → Char) (st : LoopState) (line : Str)
    (hd : st.isDescription = false)
    (hac : contains (trimSpace line) "Armor Class".toList = false)
    (h : contains (trimSpace line) "Hit Points".toList = true) :
    step caseTable st line = some { st with c := { st.c with
      HP := labelStripped "Hit Points".toList (trimSpace line) } } := by
  have hne := ne_nil_of_contains _ _ h (by decide)
  have hh := not_header_of_contains caseTable _ _ h (by rfl) (by rfl)
  rw [step_eq_firstRule caseTable st line hne hh.1 hh.2 hd, ← trim_trimPrefix_eq]
  unfold contentRules
  simp only [firstRule]
  rw [if_neg (by rw [hac]; exact Bool.false_ne_true), if_pos h]

theorem not_hasPrefix_of_hasPrefix (text p q : Str) (h : hasPrefix text p = true)
    (hpq : ∀ r, hasPrefix (p ++ r) q = false) : ¬ hasPrefix text q = true := by
  obtain ⟨r, rfl⟩ := (hasPrefix_iff text p).mp h
  rw [hpq r]
  exact Bool.false_ne_true

/-- The step on a line that starts with "Skills" and contains none of "Armor
Class", "Hit Points", "Speed", outside description mode. -/
theorem step_skills (caseTable : Char → Char) (st : LoopState) (line : Str)
    (hd : st.isDescription = false)
    (hac : contains (trimSpace line) "Armor Class".toList = false)
    (hhp : contains (trimSpace line) "Hit Points".toList = false)
    (hs : contains (trimSpace line) "Speed".toList = false)
    (h : hasPrefix (trimSpace line) "Skills".toList = true) :
    step caseTable st line = some { st with c := { st.c with
      Skills := labelStripped "Skills".toList (trimSpace line) } } := by
  have hc := contains_of_hasPrefix _ _ h
  have hne := ne_nil_of_contains _ _ hc (by decide)
  have hh := not_header_of_contains caseTable _ _ hc (by rfl) (by rfl)
  rw [step_eq_firstRule caseTable st line hne hh.1 hh.2 hd, ← trim_trimPrefix_eq]
  unfold contentRules
  simp only [firstRule]
  rw [if_neg (by rw [hac]; exact Bool.false_ne_true),
    if_neg (by rw [hhp]; exact Bool.false_ne_true),
    if_neg (by rw [hs]; exact Bool.false_ne_true),
    if_neg (not_hasPrefix_of_hasPrefix _ _ "Challenge".toList h (fun r => by simp [hasPrefix])),
    if_pos h]

/-- The step on a line that starts with "Senses" and contains none of "Armor
Class", "Hit Points", "Speed", outside description mode. -/
theorem step_senses (caseTable : Char → Char) (st : LoopState) (line : Str)
    (hd : st.isDescription = false)
    (hac : contains (trimSpace line) "Armor Class".toList = false)
    (hhp : contains (trimSpace line) "Hit Points".toList = false)
    (hs : contains (trimSpace line) "Speed".toList = false)
    (h : hasPrefix (trimSpace line) "Senses".toList = true) :
    step caseTable st line = some { st with c := { st.c with
      Senses := labelStripped "Senses".toList (trimSpace line) } } := by
  have hc := contains_of_hasPrefix _ _ h
  have hne := ne_nil_of_contains _ _ hc (by decide)
  have hh := not_header_of_contains caseTable _ _ hc (by rfl) (by rfl)
  rw [step_eq_firstRule caseTable st line hne hh.1 hh.2 hd, ← trim_trimPrefix_eq]
  unfold contentRules
  simp only [firstRule]
  rw [if_neg (by rw [hac]; exact Bool.false_ne_true),
    if_neg (by rw [hhp]; exact Bool.false_ne_true),
    if_neg (by rw [hs]; exact Bool.false_ne_true),
    if_neg (not_hasPrefix_of_hasPrefix _ _ "Challenge".toList h (fun r => by simp [hasPrefix])),
    if_neg (not_hasPrefix_of_hasPrefix _ _ "Skills".toList h (fun r => by simp [hasPrefix])),
    if_pos h]

/-- The step on a line that starts with "Languages" and contains none of "Armor
Class", "Hit Points", "Speed", outside description mode. -/
theorem step_languages (caseTable : Char → Char) (st : LoopState) (line : Str)
    (hd : st.isDescription = false)
    (hac : contains (trimSpace line) "Armor Class".toList = false)
    (hhp : contains (trimSpace line) "Hit Points".toList = false)
    (hs : contains (trimSpace line) "Speed".toList = false)
    (h : hasPrefix (trimSpace line) "Languages".toList = true) :
    step caseTable st line = some { st with c := { st.c with
      Languages := labelStripped "Languages".toList (trimSpace line) } } := by
  have hc := contains_of_hasPrefix _ _ h
  have hne := ne_nil_of_contains _ _ hc (by decide)
  have hh := not_header_of_contains caseTable _ _ hc (by rfl) (by rfl)
  rw [step_eq_firstRule caseTable st line hne hh.1 hh.2 hd, ← trim_trimPrefix_eq]
  unfold contentRules
  simp only [firstRule]
  rw [if_neg (by rw [hac]; exact Bool.false_ne_true),
    if_neg (by rw [hhp]; exact Bool.false_ne_true),
    if_neg (by rw [hs]; exact Bool.false_ne_true),
    if_neg (not_hasPrefix_of_hasPrefix _ _ "Challenge".toList h (fun r => by simp [hasPrefix])),
    if_neg (not_hasPrefix_of_hasPrefix _ _ "Skills".toList h (fun r => by simp [hasPrefix])),
    if_neg (not_hasPrefix_of_hasPrefix _ _ "Senses".toList h (fun r => by simp [hasPrefix])),
    if_pos h]

/-- The step on a line that starts with "Proficiency Bonus" and contains none of "Armor
Class", "Hit Points", "Speed", outside description mode. -/
theorem step_proficiency (caseTable : Char → Char) (st : LoopState) (line : Str)
    (hd : st.isDescription = false)
    (hac : contains (trimSpace line) "Armor Class".toList = false)
    (hhp : contains (trimSpace line) "Hit Points".toList = false)
    (hs : contains (trimSpace line) "Speed".toList = false)
    (h : hasPrefix (trimSpace line) "Proficiency Bonus".toList = true) :
    step caseTable st line = some { st with c := { st.c with
      Proficiency := labelStripped "Proficiency Bonus".toList (trimSpace line) } } := by
  have hc := contains_of_hasPrefix _ _ h
  have hne := ne_nil_of_contains _ _ hc (by decide)
  have hh := not_header_of_contains caseTable _ _ hc (by rfl) (by rfl)
  rw [step_eq_firstRule caseTable st line hne hh.1 hh.2 hd, ← trim_trimPrefix_eq]
  unfold contentRules
  simp only [firstRule]
  rw [if_neg (by rw [hac]; exact Bool.false_ne_true),
    if_neg (by rw [hhp]; exact Bool.false_ne_true),
    if_neg (by rw [hs]; exact Bool.false_ne_true),
    if_neg (not_hasPrefix_of_hasPrefix _ _ "Challenge".toList h (fun r => by simp [hasPrefix])),
    if_neg (not_hasPrefix_of_hasPrefix _ _ "Skills".toList h (fun r => by simp [hasPrefix])),
    if_neg (not_hasPrefix_of_hasPrefix _ _ "Senses".toList h (fun r => by simp [hasPrefix])),
    if_neg (not_hasPrefix_of_hasPrefix _ _ "Languages".toList h (fun r => by simp [hasPrefix])),
    if_pos h]

/-! ## Action lines -/

theorem takeWhile_ne_of_not_mem (sep : Char) (s : Str) (h : sep ∉ s) :
    s.takeWhile (fun ch => ch ≠ sep) = s := by
  induction s with
  | nil => rfl
  | cons c cs ih =>
    have hc : ¬ c = sep := fun e => h (by simp [e])
    have hcs : sep ∉ cs := fun e => h (List.mem_cons_of_mem _ e)
    have hdec : decide (c ≠ sep) = true := by simpa using hc
    simp only [List.takeWhile, hdec]
    rw [ih hcs]

/-- A text with a separator is the text before the first one, the separator,
and the text after it. -/
theorem eq_takeWhile_sep_afterFirst (sep : Char) (s : Str) (h : sep ∈ s) :
    s = s.takeWhile (fun ch => ch ≠ sep) ++ sep :: afterFirst sep s := by
  induction s with
  | nil => simp at h
  | cons c cs ih =>
    by_cases hc : c = sep
    · subst hc
      simp [afterFirst, List.takeWhile, List.dropWhile]
    · have hmem : sep ∈ cs := by
        rcases List.mem_cons.mp h with h' | h'
        · exact absurd h'.symm hc
        · exact h'
      have ih' := ih hmem
      simp only [afterFirst] at ih' ⊢
      simp only [List.takeWhile, List.dropWhile, hc, ne_eq, not_false_eq_true, decide_True,
        List.cons_append, List.cons.injEq, true_and]
      exact ih'

theorem trimPrefix_append (p r : Str) : trimPrefix (p ++ r) p = r := by
  unfold trimPrefix
  rw [if_pos ((hasPrefix_iff _ _).mpr ⟨r, rfl⟩)]
  simp

theorem trimPrefix_takeWhile_sep (sep : Char) (s : Str) (h : sep ∈ s) :
    trimPrefix s (s.takeWhile (fun ch => ch ≠ sep) ++ [sep]) = afterFirst sep s := by
  have e := eq_takeWhile_sep_afterFirst sep s h
  have e' : s.takeWhile (fun ch => ch ≠ sep) ++ [sep] ++ afterFirst sep s = s := by
    rw [List.append_assoc]
    exact e.symm
  have key := trimPrefix_append (s.takeWhile (fun ch => ch ≠ sep) ++ [sep]) (afterFirst sep s)
  rw [e'] at key
  exact key

theorem trimPrefix_of_longer (s p : Str) (h : s.length < p.length) : trimPrefix s p = s := by
  unfold trimPrefix
  have hn : ¬ hasPrefix s p = true := fun e => by
    have := hasPrefix_length_le s p e
    omega
  rw [if_neg hn]

/-- The step on a line that reaches the action rule. -/
theorem step_action (caseTable : Char → Char) (st : LoopState) (line : Str)
    (hd : st.isDescription = false) (hne : trimSpace line ≠ [])
    (ha : toLower caseTable (trimSpace line) ≠ "actions".toList)
    (hdesc : toLower caseTable (trimSpace line) ≠ "description".toList)
    (h1 : contains (trimSpace line) "Armor Class".toList = false)
    (h2 : contains (trimSpace line) "Hit Points".toList = false)
    (h3 : contains (trimSpace line) "Speed".toList = false)
    (h4 : hasPrefix (trimSpace line) "Challenge".toList = false)
    (h5 : hasPrefix (trimSpace line) "Skills".toList = false)
    (h6 : hasPrefix (trimSpace line) "Senses".toList = false)
    (h7 : hasPrefix (trimSpace line) "Languages".toList = false)
    (h8 : hasPrefix (trimSpace line) "Proficiency Bonus".toList = false)
    (h9 : st.isActions = true ∨ contains (trimSpace line) "Attack:".toList = true) :
    step caseTable st line
      = some { st with c := { st.c with Actions := st.c.Actions ++
          [{ Name := (trimSpace line).takeWhile (fun ch => ch ≠ '.'),
             Description := trimSpace (trimPrefix (trimSpace line)
               ((trimSpace line).takeWhile (fun ch => ch ≠ '.') ++ ['.'])) }] } } := by
  have h9' : (st.isActions || contains (trimSpace line) "Attack:".toList) = true := by
    simpa using h9
  rw [step_eq_firstRule caseTable st line hne ha hdesc hd]
  unfold contentRules
  simp only [firstRule]
  rw [if_neg (by rw [h1]; exact Bool.false_ne_true),
    if_neg (by rw [h2]; exact Bool.false_ne_true),
    if_neg (by rw [h3]; exact Bool.false_ne_true),
    if_neg (by rw [h4]; exact Bool.false_ne_true),
    if_neg (by rw [h5]; exact Bool.false_ne_true),
    if_neg (by rw [h6]; exact Bool.false_ne_true),
    if_neg (by rw [h7]; exact Bool.false_ne_true),
    if_neg (by rw [h8]; exact Bool.false_ne_true),
    if_pos h9']

/-! ## The pattern `\w+ beast, \w+` -/

theorem beastMatchAt_sound (s : Str) (h : beastMatchAt s = true) :
    ∃ w w' post : Str, s = w ++ " beast, ".toList ++ w' ++ post
      ∧ w ≠ [] ∧ w' ≠ [] ∧ (∀ c ∈ w, isWord c = true) ∧ (∀ c ∈ w', isWord c = true) := by
  unfold beastMatchAt at h
  simp only [Bool.and_eq_true, bne_iff_ne, ne_eq, decide_eq_true_eq, decide_not,
    Bool.not_eq_true', decide_eq_false_iff_not] at h
  obtain ⟨⟨hw, hp⟩, hc⟩ := h
  obtain ⟨r2, hr2⟩ := (hasPrefix_iff _ _).mp hp
  have hdrop : (s.dropWhile isWord).drop 8 = r2 := by
    rw [hr2]
    rfl
  rw [hdrop] at hc
  cases r2 with
  | nil => exact absurd hc (by simp)
  | cons c post =>
    simp only at hc
    refine ⟨s.takeWhile isWord, [c], post, ?_, hw, by simp, mem_takeWhile_true _ _, ?_⟩
    · have e1 : s = s.takeWhile isWord ++ s.dropWhile isWord :=
        (List.takeWhile_append_dropWhile isWord s).symm
      rw [hr2] at e1
      calc s = s.takeWhile isWord ++ (" beast, ".toList ++ c :: post) := e1
        _ = _ := by simp only [List.append_assoc, List.singleton_append]
    · intro x hx
      rw [List.mem_singleton.mp hx]
      exact hc

theorem beastMatchAt_complete (w w' post : Str) (hw : w ≠ []) (hw' : w' ≠ [])
    (hall : ∀ c ∈ w, isWord c = true) (hall' : ∀ c ∈ w', isWord c = true) :
    beastMatchAt (w ++ " beast, ".toList ++ w' ++ post) = true := by
  have hhead : ∀ c, (" beast, ".toList ++ (w' ++ post)).head? = some c → isWord c = false := by
    intro c hc
    have : c = ' ' := by
      have e : (" beast, ".toList ++ (w' ++ post)).head? = some ' ' := rfl
      rw [e] at hc
      exact (Option.some.inj hc).symm
    subst this
    decide
  have e : w ++ " beast, ".toList ++ w' ++ post = w ++ (" beast, ".toList ++ (w' ++ post)) := by
    simp only [List.append_assoc]
  unfold beastMatchAt
  simp only
  rw [e, takeWhile_append_all _ _ _ hall hhead, dropWhile_append_all _ _ _ hall hhead]
  have hp : hasPrefix (" beast, ".toList ++ (w' ++ post)) " beast, ".toList = true :=
    (hasPrefix_iff _ _).mpr ⟨_, rfl⟩
  have hdrop : (" beast, ".toList ++ (w' ++ post)).drop 8 = w' ++ post := rfl
  rw [hp, hdrop]
  cases w' with
  | nil => exact absurd rfl hw'
  | cons c l =>
    have hc : isWord c = true := hall' c (List.mem_cons_self _ _)
    simp [hw, hc]

theorem beastMatch_append (pre s : Str) (h : beastMatchAt s = true) (hs : s ≠ []) :
    beastMatch (pre ++ s) = true := by
  induction pre with
  | nil =>
    cases s with
    | nil => exact absurd rfl hs
    | cons c cs =>
      simp only [List.nil_append, beastMatch, h, Bool.true_or]
  | cons a pre ih =>
    simp only [List.cons_append, beastMatch, List.append_eq, ih, Bool.or_true]

/-- The pattern matches exactly the texts that have the shape. -/
theorem beastMatch_iff (text : Str) : beastMatch text = true ↔ HasBeastShape text := by
  constructor
  · intro h
    induction text with
    | nil => exact absurd h (by simp [beastMatch])
    | cons c cs ih =>
      simp only [beastMatch, Bool.or_eq_true] at h
      rcases h with h | h
      · obtain ⟨w, w', post, e, h1, h2, h3, h4⟩ := beastMatchAt_sound _ h
        exact ⟨[], w, w', post, by simpa using e, h1, h2, h3, h4⟩
      · obtain ⟨pre, w, w', post, e, h1, h2, h3, h4⟩ := ih h
        exact ⟨c :: pre, w, w', post, by simp [e], h1, h2, h3, h4⟩
  · rintro ⟨pre, w, w', post, e, h1, h2, h3, h4⟩
    have hm := beastMatchAt_complete w w' post h1 h2 h3 h4
    have hne : w ++ " beast, ".toList ++ w' ++ post ≠ [] := by
      cases w with
      | nil => exact absurd rfl h1
      | cons a l => simp
    have := beastMatch_append pre _ hm hne
    rw [e]
    simpa only [List.append_assoc] using this

/-- The step on a line that reaches the beast rule in state Normal. -/
theorem step_beast (caseTable : Char → Char) (st : LoopState) (line : Str)
    (hd : st.isDescription = false) (hact : st.isActions = false)
    (h1 : contains (trimSpace line) "Armor Class".toList = false)
    (h2 : contains (trimSpace line) "Hit Points".toList = false)
    (h3 : contains (trimSpace line) "Speed".toList = false)
    (h4 : hasPrefix (trimSpace line) "Challenge".toList = false)
    (h5 : hasPrefix (trimSpace line) "Skills".toList = false)
    (h6 : hasPrefix (trimSpace line) "Senses".toList = false)
    (h7 : hasPrefix (trimSpace line) "Languages".toList = false)
    (h8 : hasPrefix (trimSpace line) "Proficiency Bonus".toList = false)
    (h9 : contains (trimSpace line) "Attack:".toList = false)
    (h10 : contains (trimSpace line) "beast".toList = true) :
    step caseTable st line
      = if beastMatch (trimSpace line) = true then
          some { st with c := { st.c with Type_ := trimSpace line } }
        else defaultCase st (trimSpace line) := by
  have hne := ne_nil_of_contains _ _ h10 (by decide)
  have hh := not_header_of_contains caseTable _ _ h10 (by rfl) (by rfl)
  unfold step
  simp only
  rw [if_neg hne, if_neg hh.1, if_neg hh.2, if_neg (by rw [hd]; exact Bool.false_ne_true),
    if_neg (by rw [h1]; exact Bool.false_ne_true),
    if_neg (by rw [h2]; exact Bool.false_ne_true),
    if_neg (by rw [h3]; exact Bool.false_ne_true),
    if_neg (by rw [h4]; exact Bool.false_ne_true),
    if_neg (by rw [h5]; exact Bool.false_ne_true),
    if_neg (by rw [h6]; exact Bool.false_ne_true),
    if_neg (by rw [h7]; exact Bool.false_ne_true),
    if_neg (by rw [h8]; exact Bool.false_ne_true),
    if_neg (by rw [hact, h9]; simp),
    if_pos h10]

/-! ## The tokens of `strings.Fields` -/

theorem fieldsAux_token (t rest cur : Str) (ht : ∀ c ∈ t, isSpace c = false) :
    fieldsAux (t ++ rest) cur = fieldsAux rest (t.reverse ++ cur) := by
  induction t generalizing cur with
  | nil => rfl
  | cons c cs ih =>
    have hc : isSpace c = false := ht c (List.mem_cons_self _ _)
    have hcs : ∀ x ∈ cs, isSpace x = false := fun x hx => ht x (List.mem_cons_of_mem _ hx)
    simp only [List.cons_append, fieldsAux, hc, Bool.false_eq_true, if_false, List.append_eq]
    rw [ih (c :: cur) hcs]
    simp

theorem fieldsAux_spaces (ws rest : Str) (hws : ∀ c ∈ ws, isSpace c = true) :
    fieldsAux (ws ++ rest) [] = fieldsAux rest [] := by
  induction ws with
  | nil => rfl
  | cons c cs ih =>
    have hc : isSpace c = true := hws c (List.mem_cons_self _ _)
    simp only [List.cons_append, fieldsAux, hc, if_true, List.append_eq]
    exact ih (fun x hx => hws x (List.mem_cons_of_mem _ hx))

/-- The end of a token: at a space, or at the end of the text, the token being
read is emitted. -/
theorem fieldsAux_end (rest cur : Str) (hcur : cur ≠ [])
    (hr : rest = [] ∨ ∃ c r, rest = c :: r ∧ isSpace c = true) :
    ∃ more, fieldsAux rest cur = cur.reverse :: more := by
  rcases hr with rfl | ⟨c, r, rfl, hc⟩
  · exact ⟨[], by simp [fieldsAux, hcur]⟩
  · exact ⟨fieldsAux r [], by simp [fieldsAux, hc, hcur]⟩

/-- The second token of a text made of a token, white space, a token, and
then the end of the text or a space. -/
theorem fields_second (t1 ws t2 rest : Str)
    (h1 : t1 ≠ []) (ht1 : ∀ c ∈ t1, isSpace c = false)
    (hw : ws ≠ []) (hws : ∀ c ∈ ws, isSpace c = true)
    (h2 : t2 ≠ []) (ht2 : ∀ c ∈ t2, isSpace c = false)
    (hr : rest = [] ∨ ∃ c r, rest = c :: r ∧ isSpace c = true) :
    (fields (t1 ++ ws ++ t2 ++ rest))[1]? = some t2 := by
  have e : t1 ++ ws ++ t2 ++ rest = t1 ++ (ws ++ (t2 ++ rest)) := by
    simp only [List.append_assoc]
  unfold fields
  rw [e, fieldsAux_token t1 _ [] ht1, List.append_nil]
  cases ws with
  | nil => exact absurd rfl hw
  | cons s ws' =>
    have hs : isSpace s = true := hws s (List.mem_cons_self _ _)
    have hrev : t1.reverse ≠ [] := by simpa using h1
    have step1 : fieldsAux (s :: ws' ++ (t2 ++ rest)) t1.reverse
        = t1 :: fieldsAux (ws' ++ (t2 ++ rest)) [] := by
      simp [fieldsAux, hs, hrev]
    rw [step1, fieldsAux_spaces ws' _ (fun x hx => hws x (List.mem_cons_of_mem _ hx)),
      fieldsAux_token t2 rest [] ht2, List.append_nil]
    obtain ⟨more, hmore⟩ := fieldsAux_end rest t2.reverse (by simpa using h2) hr
    rw [hmore]
    simp

/-- The step on a Challenge line whose second token exists. -/
theorem step_challenge (caseTable : Char → Char) (st : LoopState) (line tok : Str)
    (hd : st.isDescription = false)
    (hp : hasPrefix (trimSpace line) "Challenge".toList = true)
    (hac : contains (trimSpace line) "Armor Class".toList = false)
    (hhp : contains (trimSpace line) "Hit Points".toList = false)
    (hs : contains (trimSpace line) "Speed".toList = false)
    (hf : (fields (trimSpace line))[1]? = some tok) :
    step caseTable st line = some { st with c := { st.c with Subtitle := tok } } := by
  have hc := contains_of_hasPrefix _ _ hp
  have hne := ne_nil_of_contains _ _ hc (by decide)
  have hh := not_header_of_contains caseTable _ _ hc (by rfl) (by rfl)
  rw [step_eq_firstRule caseTable st line hne hh.1 hh.2 hd]
  unfold contentRules
  simp only [firstRule]
  rw [if_neg (by rw [hac]; exact Bool.false_ne_true),
    if_neg (by rw [hhp]; exact Bool.false_ne_true),
    if_neg (by rw [hs]; exact Bool.false_ne_true), if_pos hp, hf]
  rfl

/-! ## Rounding: `roundHalfEven`, `log2`, `f64Round` -/

theorem div_mod_of_eq (n d q r : Nat) (h : n = q * d + r) (hr : r < d) :
    n / d = q ∧ n % d = r := by
  have hd : 0 < d := by omega
  subst h
  constructor
  · rw [Nat.add_comm, Nat.add_mul_div_right _ _ hd, Nat.div_eq_of_lt hr, Nat.zero_add]
  · rw [Nat.add_comm, Nat.add_mul_mod_self_right, Nat.mod_eq_of_lt hr]

theorem roundHalfEven_of_lt (n d q r : Nat) (h : n = q * d + r) (hr : 2 * r < d) :
    roundHalfEven n d = q := by
  obtain ⟨hq, hm⟩ := div_mod_of_eq n d q r h (by omega)
  unfold roundHalfEven
  simp only [hq, hm, if_pos hr]

theorem roundHalfEven_of_gt (n d q r : Nat) (h : n = q * d + r) (hr : r < d)
    (hr2 : d < 2 * r) : roundHalfEven n d = q + 1 := by
  obtain ⟨hq, hm⟩ := div_mod_of_eq n d q r h hr
  unfold roundHalfEven
  simp only [hq, hm, if_neg (show ¬ 2 * r < d by omega), if_pos hr2]

theorem roundHalfEven_of_tie (n d q r : Nat) (h : n = q * d + r) (hd : 0 < d)
    (hr2 : 2 * r = d) : roundHalfEven n d = if q % 2 = 0 then q else q + 1 := by
  obtain ⟨hq, hm⟩ := div_mod_of_eq n d q r h (by omega)
  unfold roundHalfEven
  simp only [hq, hm, if_neg (show ¬ 2 * r < d by omega), if_neg (show ¬ d < 2 * r by omega)]

theorem roundHalfEven_one (n : Nat) : roundHalfEven n 1 = n :=
  roundHalfEven_of_lt n 1 n 0 (by simp) (by decide)

/-- The rounded value is within one half of the exact quotient. -/
theorem roundHalfEven_error (n d : Nat) (hd : 0 < d) :
    2 * (roundHalfEven n d * d) ≤ 2 * n + d ∧ 2 * n ≤ 2 * (roundHalfEven n d * d) + d := by
  have hdm : d * (n / d) + n % d = n := Nat.div_add_mod n d
  have hlt : n % d < d := Nat.mod_lt n hd
  unfold roundHalfEven
  simp only
  generalize n / d = q at hdm
  generalize n % d = r at hdm hlt
  have hc : q * d = d * q := Nat.mul_comm q d
  have hc1 : (q + 1) * d = d * q + d := by rw [Nat.add_mul, Nat.one_mul, hc]
  split_ifs <;> simp only [hc, hc1] <;> omega

theorem log2Fuel_spec (fuel n : Nat) (hn : n ≤ fuel) (hpos : 0 < n) :
    2 ^ log2Fuel fuel n ≤ n ∧ n < 2 ^ (log2Fuel fuel n + 1) := by
  induction fuel generalizing n with
  | zero => omega
  | succ fuel ih =>
    unfold log2Fuel
    by_cases h2 : 2 ≤ n
    · rw [if_pos h2]
      obtain ⟨ih1, ih2⟩ := ih (n / 2) (by omega) (by omega)
      rw [Nat.pow_succ, Nat.pow_succ]
      rw [Nat.pow_succ] at ih2
      constructor <;> omega
    · rw [if_neg h2]
      have : n = 1 := by omega
      subst this
      decide

/-- The leading bit: `2 ^ log2 n ≤ n < 2 ^ (log2 n + 1)`. -/
theorem log2_spec (n : Nat) (hpos : 0 < n) : 2 ^ log2 n ≤ n ∧ n < 2 ^ (log2 n + 1) :=
  log2Fuel_spec n n (Nat.le_refl n) hpos

/-- The rounding to 53 significant bits of a fraction that is at least 1 and
below `2 ^ 53`: the significand is the rounded scaled quotient, and the scaled
quotient lies between `2 ^ 52` and `2 ^ 53`. -/
theorem f64Round_normal (n d : Nat) (hd : 0 < d) (hdn : d ≤ n) (hsmall : n < 2 ^ 53 * d) :
    ∃ s, f64Round n d = ⟨roundHalfEven (n * 2 ^ s) d, 2 ^ s⟩
      ∧ 2 ^ 52 * d ≤ n * 2 ^ s ∧ n * 2 ^ s < 2 ^ 53 * d := by
  have hn0 : n ≠ 0 := by omega
  have hq : 0 < n / d := Nat.div_pos hdn hd
  obtain ⟨hl1, hl2⟩ := log2_spec (n / d) hq
  have hqlt : n / d < 2 ^ 53 := (Nat.div_lt_iff_lt_mul hd).mpr hsmall
  have he : log2 (n / d) ≤ 52 := by
    by_contra hcon
    have h53 : 53 ≤ log2 (n / d) := by omega
    have := Nat.pow_le_pow_right (show 0 < 2 by decide) h53
    omega
  refine ⟨52 - log2 (n / d), ?_, ?_, ?_⟩
  · unfold f64Round
    simp only [if_neg hn0, if_pos hdn, if_pos he]
  · have h1 : 2 ^ log2 (n / d) * d ≤ n := (Nat.le_div_iff_mul_le hd).mp hl1
    have h2 : 2 ^ 52 = 2 ^ log2 (n / d) * 2 ^ (52 - log2 (n / d)) := by
      rw [← Nat.pow_add]
      congr 1
      omega
    calc 2 ^ 52 * d = (2 ^ log2 (n / d) * d) * 2 ^ (52 - log2 (n / d)) := by
          rw [h2]; ring
      _ ≤ n * 2 ^ (52 - log2 (n / d)) := Nat.mul_le_mul_right _ h1
  · have h1 : n < 2 ^ (log2 (n / d) + 1) * d := (Nat.div_lt_iff_lt_mul hd).mp hl2
    have h2 : 2 ^ 53 = 2 ^ (log2 (n / d) + 1) * 2 ^ (52 - log2 (n / d)) := by
      rw [← Nat.pow_add]
      congr 1
      omega
    have hpos : 0 < 2 ^ (52 - log2 (n / d)) := Nat.two_pow_pos _
    calc n * 2 ^ (52 - log2 (n / d))
        < (2 ^ (log2 (n / d) + 1) * d) * 2 ^ (52 - log2 (n / d)) :=
          Nat.mul_lt_mul_of_pos_right h1 hpos
      _ = 2 ^ 53 * d := by rw [h2]; ring

theorem roundHalfEven_scale (n d k : Nat) (hk : 0 < k) :
    roundHalfEven (n * k) (d * k) = roundHalfEven n d := by
  unfold roundHalfEven
  simp only [Nat.mul_div_mul_right n d hk, Nat.mul_mod_mul_right]
  have e1 : (2 * (n % d * k) < d * k) ↔ (2 * (n % d) < d) := by
    rw [← Nat.mul_assoc]
    exact Nat.mul_lt_mul_right hk
  have e2 : (d * k < 2 * (n % d * k)) ↔ (d < 2 * (n % d)) := by
    rw [← Nat.mul_assoc]
    exact Nat.mul_lt_mul_right hk
  simp only [e1, e2]

/-- The two `float64` values of `extractSpeed` for `5 ≤ v ≤ 1000000`: the
quotient `v / 5.0` is `M / P` and the product by `1.5` is `M2 / P2`, with the
significands `M`, `M2` rounded from the exact scaled values. -/
theorem speed_floats (v : Nat) (h5 : 5 ≤ v) (hv : v ≤ 1000000) :
    ∃ P M P2 M2 : Nat,
      qFigure v = roundHalfEven M P ∧ mFigure v = roundHalfEven M2 P2
      ∧ M = roundHalfEven (v * P) 5 ∧ M2 = roundHalfEven (3 * M * P2) (2 * P)
      ∧ 2 ^ 52 * 5 ≤ v * P ∧ v * P < 2 ^ 53 * 5
      ∧ 2 ^ 53 * P ≤ 3 * M * P2 ∧ 3 * M * P2 < 2 ^ 54 * P
      ∧ 0 < P ∧ ∃ s2, P2 = 2 ^ s2 := by
  -- the conversion float64(v)
  obtain ⟨s0, hA, -, -⟩ := f64Round_normal v 1 (by decide) (by omega) (by omega)
  rw [roundHalfEven_one] at hA
  have hS0 : 0 < 2 ^ s0 := Nat.two_pow_pos _
  -- the quotient by 5.0
  have hdn : 2 ^ s0 * 5 ≤ v * 2 ^ s0 := by
    rw [Nat.mul_comm v]
    exact Nat.mul_le_mul_left _ h5
  have hsm : v * 2 ^ s0 < 2 ^ 53 * (2 ^ s0 * 5) := by
    have : v * 2 ^ s0 < (2 ^ 53 * 5) * 2 ^ s0 := Nat.mul_lt_mul_of_pos_right (by omega) hS0
    calc v * 2 ^ s0 < (2 ^ 53 * 5) * 2 ^ s0 := this
      _ = 2 ^ 53 * (2 ^ s0 * 5) := by ring
  obtain ⟨s, hB, hB1, hB2⟩ := f64Round_normal (v * 2 ^ s0) (2 ^ s0 * 5) (by omega) hdn hsm
  have hP : 0 < 2 ^ s := Nat.two_pow_pos _
  have hM : roundHalfEven (v * 2 ^ s0 * 2 ^ s) (2 ^ s0 * 5) = roundHalfEven (v * 2 ^ s) 5 := by
    have e1 : v * 2 ^ s0 * 2 ^ s = (v * 2 ^ s) * 2 ^ s0 := by ring
    have e2 : 2 ^ s0 * 5 = 5 * 2 ^ s0 := by ring
    rw [e1, e2, roundHalfEven_scale _ _ _ hS0]
  rw [hM] at hB
  have hb1 : 2 ^ 52 * 5 ≤ v * 2 ^ s := by
    have : (2 ^ 52 * 5) * 2 ^ s0 ≤ (v * 2 ^ s) * 2 ^ s0 := by
      calc (2 ^ 52 * 5) * 2 ^ s0 = 2 ^ 52 * (2 ^ s0 * 5) := by ring
        _ ≤ v * 2 ^ s0 * 2 ^ s := hB1
        _ = (v * 2 ^ s) * 2 ^ s0 := by ring
    exact Nat.le_of_mul_le_mul_right this hS0
  have hb2 : v * 2 ^ s < 2 ^ 53 * 5 := by
    have : (v * 2 ^ s) * 2 ^ s0 < (2 ^ 53 * 5) * 2 ^ s0 := by
      calc (v * 2 ^ s) * 2 ^ s0 = v * 2 ^ s0 * 2 ^ s := by ring
        _ < 2 ^ 53 * (2 ^ s0 * 5) := hB2
        _ = (2 ^ 53 * 5) * 2 ^ s0 := by ring
    exact Nat.lt_of_mul_lt_mul_right this
  -- the product by 1.5
  obtain ⟨he1, he2⟩ := roundHalfEven_error (v * 2 ^ s) 5 (by decide)
  have hvP : 5 * 2 ^ s ≤ v * 2 ^ s := Nat.mul_le_mul_right _ h5
  have hvP2 : v * 2 ^ s ≤ 1000000 * 2 ^ s := Nat.mul_le_mul_right _ hv
  generalize hMdef : roundHalfEven (v * 2 ^ s) 5 = M at hB he1 he2
  generalize hPdef : 2 ^ s = P at hB hb1 hb2 hvP hvP2 he1 he2 hP hMdef
  obtain ⟨a, ha⟩ : ∃ a, a = v * P := ⟨_, rfl⟩
  rw [← ha] at hb1 hb2 hvP hvP2 he1 he2
  have hMP : P ≤ M := by omega
  obtain ⟨s2, hC, hC1, hC2⟩ := f64Round_normal (M * 3) (P * 2) (by omega) (by omega) (by omega)
  have hA' : f64OfInt v = ⟨v * 2 ^ s0, 2 ^ s0⟩ := hA
  refine ⟨P, M, 2 ^ s2, roundHalfEven (3 * M * 2 ^ s2) (2 * P), ?_, ?_, hMdef.symm, rfl,
    ha ▸ hb1, ha ▸ hb2, ?_, ?_, hP, s2, rfl⟩
  · unfold qFigure
    rw [hA']
    unfold f64DivFive
    simp only [hB]
  · unfold mFigure
    rw [hA']
    unfold f64DivFive
    simp only [hB]
    unfold f64MulOneHalf
    simp only [hC]
    have e1 : M * 3 * 2 ^ s2 = 3 * M * 2 ^ s2 := by ring
    have e2 : P * 2 = 2 * P := by ring
    rw [e1, e2]
  · calc 2 ^ 53 * P = 2 ^ 52 * (P * 2) := by ring
      _ ≤ M * 3 * 2 ^ s2 := hC1
      _ = 3 * M * 2 ^ s2 := by ring
  · calc 3 * M * 2 ^ s2 = M * 3 * 2 ^ s2 := by ring
      _ < 2 ^ 53 * (P * 2) := hC2
      _ = 2 ^ 54 * P := by ring

/-- The figure before "q" is the integer nearest to `v / 5`. -/
theorem qFigure_eq (v : Nat) (h5 : 5 ≤ v) (hv : v ≤ 1000000) :
    qFigure v = roundHalfEven v 5 := by
  obtain ⟨P, M, P2, M2, hq, -, hM, -, hb1, hb2, -, -, hP, -⟩ := speed_floats v h5 hv
  rw [hq]
  obtain ⟨he1, he2⟩ := roundHalfEven_error (v * P) 5 (by decide)
  rw [← hM] at he1 he2
  have hvP2 : v * P ≤ 1000000 * P := Nat.mul_le_mul_right _ hv
  obtain ⟨k, r, hr, hvk⟩ : ∃ k r, r < 5 ∧ v = k * 5 + r :=
    ⟨v / 5, v % 5, Nat.mod_lt _ (by decide), by omega⟩
  have hprod : v * P = 5 * (k * P) + r * P := by rw [hvk]; ring
  obtain ⟨A, hA⟩ : ∃ A, A = k * P := ⟨_, rfl⟩
  rw [← hA] at hprod
  rw [hprod] at he1 he2 hb1 hb2 hvP2
  norm_num at hb1 hb2
  interval_cases r
  · obtain ⟨t, ht⟩ : ∃ t, M = k * P + t := ⟨M - A, by omega⟩
    rw [roundHalfEven_of_lt M P k t ht (by omega),
      roundHalfEven_of_lt v 5 k 0 hvk (by decide)]
  · obtain ⟨t, ht⟩ : ∃ t, M = k * P + t := ⟨M - A, by omega⟩
    rw [roundHalfEven_of_lt M P k t ht (by omega),
      roundHalfEven_of_lt v 5 k 1 hvk (by decide)]
  · obtain ⟨t, ht⟩ : ∃ t, M = k * P + t := ⟨M - A, by omega⟩
    rw [roundHalfEven_of_lt M P k t ht (by omega),
      roundHalfEven_of_lt v 5 k 2 hvk (by decide)]
  · obtain ⟨t, ht⟩ : ∃ t, M = k * P + t := ⟨M - A, by omega⟩
    rw [roundHalfEven_of_gt M P k t ht (by omega) (by omega),
      roundHalfEven_of_gt v 5 k 3 hvk (by decide) (by decide)]
  · obtain ⟨t, ht⟩ : ∃ t, M = k * P + t := ⟨M - A, by omega⟩
    rw [roundHalfEven_of_gt M P k t ht (by omega) (by omega),
      roundHalfEven_of_gt v 5 k 4 hvk (by decide) (by decide)]

/-- For a multiple of five the quotient by `5.0` is exact. -/
theorem speed_floats_exact (v P m0 : Nat) (hv : v = 5 * m0) :
    roundHalfEven (v * P) 5 = m0 * P :=
  roundHalfEven_of_lt (v * P) 5 (m0 * P) 0 (by rw [hv]; ring) (by decide)

/-- The significand of the product by `1.5` is within 3/2 of the exact scaled
value `3 v P2 / 10`. -/
theorem mFigure_bounds (v P M P2 M2 : Nat) (hM : M = roundHalfEven (v * P) 5)
    (hM2 : M2 = roundHalfEven (3 * M * P2) (2 * P))
    (hb1 : 2 ^ 52 * 5 ≤ v * P) (hc2 : 3 * M * P2 < 2 ^ 54 * P) (hP : 0 < P) :
    10 * M2 < 3 * v * P2 + 15 ∧ 3 * v * P2 < 10 * M2 + 15 := by
  obtain ⟨he1, he2⟩ := roundHalfEven_error (v * P) 5 (by decide)
  rw [← hM] at he1 he2
  obtain ⟨hf1, hf2⟩ := roundHalfEven_error (3 * M * P2) (2 * P) (by omega)
  rw [← hM2] at hf1 hf2
  have hM52 : 2 ^ 52 ≤ M := by
    norm_num at hb1 ⊢
    omega
  have h1 : 2 ^ 52 * P2 ≤ M * P2 := Nat.mul_le_mul_right _ hM52
  have h3 : 3 * P2 < 4 * P := by
    norm_num at h1 hc2
    nlinarith
  have hi1 := Nat.mul_le_mul_right (3 * P2) he1
  have hi2 := Nat.mul_le_mul_right (3 * P2) he2
  constructor
  · have : P * (10 * M2) < P * (3 * v * P2 + 15) := by nlinarith
    exact Nat.lt_of_mul_lt_mul_left this
  · have : P * (3 * v * P2) < P * (10 * M2 + 15) := by nlinarith
    exact Nat.lt_of_mul_lt_mul_left this

/-- The figure before "m" is the integer nearest to `3 v / 10`, a tie going
to the even one. -/
theorem mFigure_eq (v : Nat) (h5 : 5 ≤ v) (hv : v ≤ 1000000) :
    mFigure v = roundHalfEven (3 * v) 10 := by
  obtain ⟨P, M, P2, M2, -, hm, hM, hM2, hb1, hb2, hc1, hc2, hP, s2, hs2⟩ :=
    speed_floats v h5 hv
  rw [hm]
  have hP2 : 0 < P2 := by rw [hs2]; exact Nat.two_pow_pos _
  obtain ⟨a, b, hb, hvab⟩ : ∃ a b, b < 10 ∧ v = a * 10 + b :=
    ⟨v / 10, v % 10, Nat.mod_lt _ (by decide), by omega⟩
  by_cases hb0 : b = 0
  · -- v = 10 a: everything is exact
    subst hb0
    have hMe : M = (2 * a) * P := by
      rw [hM]
      exact speed_floats_exact v P (2 * a) (by omega)
    have hM2e : M2 = 3 * a * P2 := by
      rw [hM2, hMe]
      exact roundHalfEven_of_lt _ (2 * P) (3 * a * P2) 0 (by ring) (by omega)
    rw [hM2e, roundHalfEven_of_lt (3 * a * P2) P2 (3 * a) 0 (by ring) (by omega),
      roundHalfEven_of_lt (3 * v) 10 (3 * a) 0 (by omega) (by decide)]
  by_cases hb5 : b = 5
  · -- v = 10 a + 5: everything is exact, and the last rounding is a tie
    subst hb5
    have hMe : M = (2 * a + 1) * P := by
      rw [hM]
      exact speed_floats_exact v P (2 * a + 1) (by omega)
    have hs2pos : s2 ≠ 0 := by
      intro h0
      rw [h0] at hs2
      rw [hMe, hs2] at hc1
      have hle : 2 ^ 53 * P ≤ (3 * (2 * a + 1)) * P := by
        calc 2 ^ 53 * P ≤ 3 * ((2 * a + 1) * P) * 2 ^ 0 := hc1
          _ = (3 * (2 * a + 1)) * P := by ring
      have := Nat.le_of_mul_le_mul_right hle hP
      norm_num at this
      omega
    obtain ⟨s', hs'⟩ : ∃ s', s2 = s' + 1 := ⟨s2 - 1, by omega⟩
    have hH : P2 = 2 * 2 ^ s' := by rw [hs2, hs', Nat.pow_succ, Nat.mul_comm]
    have hHpos : 0 < 2 ^ s' := Nat.two_pow_pos _
    generalize 2 ^ s' = H at hH hHpos
    have hM2e : M2 = 3 * (2 * a + 1) * H := by
      rw [hM2, hMe, hH]
      exact roundHalfEven_of_lt _ (2 * P) (3 * (2 * a + 1) * H) 0 (by ring) (by omega)
    rw [hM2e, hH,
      roundHalfEven_of_tie (3 * (2 * a + 1) * H) (2 * H) (3 * a + 1) H (by ring) (by omega) rfl,
      roundHalfEven_of_tie (3 * v) 10 (3 * a + 1) 5 (by omega) (by decide) rfl]
  -- the other residues: the error of the two roundings is far below the
  -- distance of `3 v / 10` to a half-integer
  obtain ⟨hX, hY⟩ := mFigure_bounds v P M P2 M2 hM hM2 hb1 hc2 hP
  obtain ⟨he1, -⟩ := roundHalfEven_error (v * P) 5 (by decide)
  rw [← hM] at he1
  have hvP2 : v * P ≤ 1000000 * P := Nat.mul_le_mul_right _ hv
  have hbig : 2 ^ 20 ≤ P2 := by
    by_contra hcon
    have hlt : P2 ≤ 2 ^ 20 := by omega
    have h1 : M * P2 ≤ M * 2 ^ 20 := Nat.mul_le_mul_left _ hlt
    norm_num at hc1 h1
    nlinarith
  have hprod : 3 * v * P2 = 30 * (a * P2) + (3 * b) * P2 := by rw [hvab]; ring
  obtain ⟨A, hA⟩ : ∃ A, A = a * P2 := ⟨_, rfl⟩
  rw [← hA] at hprod
  rw [hprod] at hX hY
  norm_num at hbig
  interval_cases b
  · exact absurd rfl hb0
  · have hk : (3 * a + 0) * P2 = 3 * A + 0 * P2 := by rw [hA]; ring
    obtain ⟨t, ht⟩ : ∃ t, M2 = (3 * a + 0) * P2 + t := ⟨M2 - (3 * A + 0 * P2), by omega⟩
    rw [roundHalfEven_of_lt M2 P2 (3 * a + 0) t ht (by omega),
      roundHalfEven_of_lt (3 * v) 10 (3 * a + 0) 3 (by omega) (by decide)]
  · have hk : (3 * a + 0) * P2 = 3 * A + 0 * P2 := by rw [hA]; ring
    obtain ⟨t, ht⟩ : ∃ t, M2 = (3 * a + 0) * P2 + t := ⟨M2 - (3 * A + 0 * P2), by omega⟩
    rw [roundHalfEven_of_gt M2 P2 (3 * a + 0) t ht (by omega) (by omega),
      roundHalfEven_of_gt (3 * v) 10 (3 * a + 0) 6 (by omega) (by decide) (by decide)]
  · have hk : (3 * a + 0) * P2 = 3 * A + 0 * P2 := by rw [hA]; ring
    obtain ⟨t, ht⟩ : ∃ t, M2 = (3 * a + 0) * P2 + t := ⟨M2 - (3 * A + 0 * P2), by omega⟩
    rw [roundHalfEven_of_gt M2 P2 (3 * a + 0) t ht (by omega) (by omega),
      roundHalfEven_of_gt (3 * v) 10 (3 * a + 0) 9 (by omega) (by decide) (by decide)]
  · have hk : (3 * a + 1) * P2 = 3 * A + 1 * P2 := by rw [hA]; ring
    obtain ⟨t, ht⟩ : ∃ t, M2 = (3 * a + 1) * P2 + t := ⟨M2 - (3 * A + 1 * P2), by omega⟩
    rw [roundHalfEven_of_lt M2 P2 (3 * a + 1) t ht (by omega),
      roundHalfEven_of_lt (3 * v) 10 (3 * a + 1) 2 (by omega) (by decide)]
  · exact absurd rfl hb5
  · have hk : (3 * a + 1) * P2 = 3 * A + 1 * P2 := by rw [hA]; ring
    obtain ⟨t, ht⟩ : ∃ t, M2 = (3 * a + 1) * P2 + t := ⟨M2 - (3 * A + 1 * P2), by omega⟩
    rw [roundHalfEven_of_gt M2 P2 (3 * a + 1) t ht (by omega) (by omega),
      roundHalfEven_of_gt (3 * v) 10 (3 * a + 1) 8 (by omega) (by decide) (by decide)]
  · have hk : (3 * a + 2) * P2 = 3 * A + 2 * P2 := by rw [hA]; ring
    obtain ⟨t, ht⟩ : ∃ t, M2 = (3 * a + 2) * P2 + t := ⟨M2 - (3 * A + 2 * P2), by omega⟩
    rw [roundHalfEven_of_lt M2 P2 (3 * a + 2) t ht (by omega),
      roundHalfEven_of_lt (3 * v) 10 (3 * a + 2) 1 (by omega) (by decide)]
  · have hk : (3 * a + 2) * P2 = 3 * A + 2 * P2 := by rw [hA]; ring
    obtain ⟨t, ht⟩ : ∃ t, M2 = (3 * a + 2) * P2 + t := ⟨M2 - (3 * A + 2 * P2), by omega⟩
    rw [roundHalfEven_of_lt M2 P2 (3 * a + 2) t ht (by omega),
      roundHalfEven_of_lt (3 * v) 10 (3 * a + 2) 4 (by omega) (by decide)]
  · have hk : (3 * a + 2) * P2 = 3 * A + 2 * P2 := by rw [hA]; ring
    obtain ⟨t, ht⟩ : ∃ t, M2 = (3 * a + 2) * P2 + t := ⟨M2 - (3 * A + 2 * P2), by omega⟩
    rw [roundHalfEven_of_gt M2 P2 (3 * a + 2) t ht (by omega) (by omega),
      roundHalfEven_of_gt (3 * v) 10 (3 * a + 2) 7 (by omega) (by decide) (by decide)]

/-! ## Lemmas on the serialised content -/

/-- C1: the classifier run from the empty record in state Normal over the six
example lines ends (in description mode) with the record whose only non-empty
fields are armorClass "15", hitPoints "30", the single action
("Bite", "+4 to hit, 5 (1d6+2) piercing damage.") and the description
"A fearsome beast." followed by two newline characters. -/
theorem C1_example_record (caseTable : Char → Char) :
    classifyLines caseTable (initState emptyCreature) exampleLines =
      some { c := { emptyCreature with
                    AC := "15".toList
                    HP := "30".toList
                    Actions := [{ Name := "Bite".toList,
                                  Description := "+4 to hit, 5 (1d6+2) piercing damage.".toList }]
                    Description := "A fearsome beast.\n\n".toList },
             isDescription := true, isActions := false } := by
  rfl

/-- C2 (amended): every phrase in which a decimal integer followed by
optional white space and "ft" occurs has a leftmost such occurrence, and when
the integer `v` of that occurrence fits in an `int` (`v ≤ 2^63 - 1`),
`extractSpeed` returns the base string "<v> ft (<q> q, <m> m)" of that
occurrence, followed, exactly when the label-stripped and trimmed phrase
contains a comma, by a comma and everything after the first comma of that
trimmed phrase; with no comma the result is the base alone. In particular
"30 ft." gives "30 ft (6 q, 9 m)" and "30 ft., burrow 10 ft." gives
"30 ft (6 q, 9 m), burrow 10 ft.". -/
theorem C2_speed_base_and_tail :
    (∀ p pre d ws post : Str, FtOccurrence p pre d ws post →
      ∃ pre0 d0 ws0 post0, FirstFtOccurrence p pre0 d0 ws0 post0)
    ∧ (∀ p pre d ws post : Str, FirstFtOccurrence p pre d ws post →
      digitsToNat d ≤ maxInt →
      extractSpeed p = speedBase (digitsToNat d) ++
        (if ',' ∈ speedPhrase p then ',' :: afterFirst ',' (speedPhrase p) else []))
    ∧ extractSpeed "30 ft.".toList = "30 ft (6 q, 9 m)".toList
    ∧ extractSpeed "30 ft., burrow 10 ft.".toList
        = "30 ft (6 q, 9 m), burrow 10 ft.".toList := by
  refine ⟨exists_first_of_occurrence, ?_, by decide, by decide⟩
  intro p pre d ws post hocc hfit
  exact extractSpeed_of_match p d (findFt_first p pre d ws post hocc) hfit

/-- C2 at the phrase "40 ft., climb 30 ft.". -/
theorem C2_speed_base_and_tail_witness :
    extractSpeed "40 ft., climb 30 ft.".toList = speedBase (digitsToNat "40".toList) ++
      (if ',' ∈ speedPhrase "40 ft., climb 30 ft.".toList
        then ',' :: afterFirst ',' (speedPhrase "40 ft., climb 30 ft.".toList) else []) :=
  C2_speed_base_and_tail.2.1 "40 ft., climb 30 ft.".toList [] "40".toList
    " ".toList "., climb 30 ft.".toList
    ⟨⟨by decide, by decide, by decide, by decide⟩, fun _ _ _ _ _ => Nat.zero_le _⟩
    (by decide)

/-- C2 as stated fails: in "99999999999999999999 ft" an integer followed by
white space and "ft" occurs (at the very start), the value does not fit in an
`int`, and `extractSpeed` returns the phrase as it is, without any base string
"<v> ft (<q> q, <m> m)"; and for "30 ft, fly 10 ft " (a blank at the end) the
text appended after the base is " fly 10 ft", not the " fly 10 ft " that
follows the first comma of the phrase. -/
theorem C2_counterexample :
    FirstFtOccurrence hugeSpeedPhrase [] "99999999999999999999".toList " ".toList []
    ∧ extractSpeed hugeSpeedPhrase = hugeSpeedPhrase
    ∧ contains (extractSpeed hugeSpeedPhrase) " ft (".toList = false
    ∧ extractSpeed hugeSpeedPhrase ≠ speedBase (digitsToNat "99999999999999999999".toList)
    ∧ extractSpeed paddedSpeedPhrase = "30 ft (6 q, 9 m), fly 10 ft".toList
    ∧ afterFirst ',' paddedSpeedPhrase = " fly 10 ft ".toList
    ∧ extractSpeed paddedSpeedPhrase
        ≠ speedBase 30 ++ (',' :: afterFirst ',' paddedSpeedPhrase) :=
  ⟨⟨⟨by decide, by decide, by decide, by decide⟩, fun _ _ _ _ _ => Nat.zero_le _⟩,
    by decide, by decide, by decide, by decide, by decide, by decide⟩

/-- C3 (amended): for every sequence of table rows and each of the six
abilities, the mapping built from the empty one holds for the code the value
"<score trimmed> (<bonus trimmed>)" of the last row that has at least 3 cells
and whose cell 0, once trimmed, is the canonical name, and no entry when there
is no such row; it has no key besides the six codes. In particular the rows
of the example give exactly STR "18 (+4)" and DEX "14 (+2)". -/
theorem C3_ability_table :
    (∀ (rows : List (List Str)) (ab : Str × Str), ab ∈ abilities →
      mapGet (extractStats [] rows) ab.2 = (lastRow (rowNamed ab.1) rows).map rowValue)
    ∧ (∀ (rows : List (List Str)) (k : Str), (∀ ab ∈ abilities, k ≠ ab.2) →
      mapGet (extractStats [] rows) k = none)
    ∧ extractStats [] exampleRows
        = [("STR".toList, "18 (+4)".toList), ("DEX".toList, "14 (+2)".toList)] := by
  refine ⟨?_, ?_, by decide⟩
  · intro rows ab hab
    rw [mapGet_extractStats [] rows ab hab]
    cases lastRow (rowNamed ab.1) rows <;> rfl
  · intro rows k hk
    rw [mapGet_extractStats_other [] rows k hk]
    rfl

/-- C3 on the rows of the example: the entry of STR comes from the row named
"Strength", and the key "BOGUS" is absent. -/
theorem C3_ability_table_witness :
    mapGet (extractStats [] exampleRows) "STR".toList
        = (lastRow (rowNamed "Strength".toList) exampleRows).map rowValue
    ∧ mapGet (extractStats [] exampleRows) "BOGUS".toList = none :=
  ⟨C3_ability_table.1 exampleRows ("Strength".toList, "STR".toList) (by decide),
   C3_ability_table.2.1 exampleRows "BOGUS".toList (by decide)⟩

/-- C3 as stated fails: in the table with the single row [" Strength", "18",
"+4"] no row has a cell 0 that is exactly "Strength", yet the mapping has the
entry STR "18 (+4)", because the code trims cell 0 before it compares. -/
theorem C3_counterexample :
    lastRow (rowNamedExactly "Strength".toList) paddedRows = none
    ∧ mapGet (extractStats [] paddedRows) "STR".toList = some "18 (+4)".toList := by
  decide

/-- C4 (what the code does): outside description mode, a line that starts
with "Challenge", contains none of "Armor Class", "Hit Points", "Speed" and has
fewer than two white-space separated tokens makes the step panic (index 1 of
`strings.Fields` is out of range): no state comes out of the step, the lines
after it are not processed and no record is returned. -/
theorem C4_challenge_without_token_aborts (caseTable : Char → Char) (st : LoopState)
    (line : Str) (rest : List Str)
    (hd : st.isDescription = false)
    (hp : hasPrefix (trimSpace line) "Challenge".toList = true)
    (hac : contains (trimSpace line) "Armor Class".toList = false)
    (hhp : contains (trimSpace line) "Hit Points".toList = false)
    (hs : contains (trimSpace line) "Speed".toList = false)
    (hf : (fields (trimSpace line)).length < 2) :
    step caseTable st line = none
    ∧ classifyLines caseTable st (line :: rest) = none
    ∧ scrapeCreature caseTable emptyCreature ["Challenge".toList, "Armor Class 15".toList] []
        = none := by
  have hc := contains_of_hasPrefix _ _ hp
  have hne := ne_nil_of_contains _ _ hc (by decide)
  have hh := not_header_of_contains caseTable _ _ hc (by rfl) (by rfl)
  have hstep : step caseTable st line = none := by
    rw [step_eq_firstRule caseTable st line hne hh.1 hh.2 hd]
    unfold contentRules
    simp only [firstRule]
    rw [if_neg (by rw [hac]; exact Bool.false_ne_true),
      if_neg (by rw [hhp]; exact Bool.false_ne_true),
      if_neg (by rw [hs]; exact Bool.false_ne_true), if_pos hp]
    have hnone : (fields (trimSpace line))[1]? = none :=
      List.getElem?_eq_none (by omega)
    rw [hnone]
    rfl
  refine ⟨hstep, ?_, rfl⟩
  simp only [classifyLines, hstep]

/-- C4 at the line "Challenge" in the start state. -/
theorem C4_challenge_without_token_aborts_witness :
    step id (initState emptyCreature) "Challenge".toList = none
    ∧ classifyLines id (initState emptyCreature) ["Challenge".toList, "Hit Points 30".toList]
        = none
    ∧ scrapeCreature id emptyCreature ["Challenge".toList, "Armor Class 15".toList] []
        = none :=
  C4_challenge_without_token_aborts id (initState emptyCreature) "Challenge".toList
    ["Hit Points 30".toList] rfl (by decide) (by decide) (by decide) (by decide) (by decide)

/-- C5: outside description mode a line that is neither empty nor a section
header is handled by the first content rule, in the order Armor Class, Hit
Points, Speed, Challenge, Skills, Senses, Languages, Proficiency Bonus, action,
beast, trait, whose condition holds, and by that rule only. So a line that
contains "Speed" and starts with "Challenge" (with neither "Armor Class" nor
"Hit Points" in it) sets speed to `extractSpeed` of the line and nothing else,
challengeRating included; and a line that contains "Armor Class" sets armorClass
and nothing else, whatever other labels it contains. -/
theorem C5_rule_precedence (caseTable : Char → Char) (st : LoopState) (line : Str)
    (hd : st.isDescription = false) :
    (trimSpace line ≠ [] → toLower caseTable (trimSpace line) ≠ "actions".toList →
        toLower caseTable (trimSpace line) ≠ "description".toList →
        step caseTable st line = firstRule contentRules st (trimSpace line))
    ∧ (contains (trimSpace line) "Speed".toList = true →
        hasPrefix (trimSpace line) "Challenge".toList = true →
        contains (trimSpace line) "Armor Class".toList = false →
        contains (trimSpace line) "Hit Points".toList = false →
        step caseTable st line
          = some { st with c := { st.c with Speed := extractSpeed (trimSpace line) } })
    ∧ (contains (trimSpace line) "Armor Class".toList = true →
        step caseTable st line
          = some { st with c := { st.c with
              AC := trimSpace (trimPrefix (trimSpace line) "Armor Class".toList) } }) := by
  refine ⟨fun hne ha hdesc => step_eq_firstRule caseTable st line hne ha hdesc hd, ?_, ?_⟩
  · intro hs _ hac hhp
    have hne := ne_nil_of_contains _ _ hs (by decide)
    have hh := not_header_of_contains caseTable _ _ hs (by rfl) (by rfl)
    rw [step_eq_firstRule caseTable st line hne hh.1 hh.2 hd]
    unfold contentRules
    simp only [firstRule]
    rw [if_neg (by rw [hac]; exact Bool.false_ne_true),
      if_neg (by rw [hhp]; exact Bool.false_ne_true), if_pos hs]
  · intro hac
    have hne := ne_nil_of_contains _ _ hac (by decide)
    have hh := not_header_of_contains caseTable _ _ hac (by rfl) (by rfl)
    rw [step_eq_firstRule caseTable st line hne hh.1 hh.2 hd]
    unfold contentRules
    simp only [firstRule]
    rw [if_pos hac]

/-- C5 at the line "Challenge Speed 30 ft." in the start state: the Speed rule
acts, the Challenge rule does not. -/
theorem C5_rule_precedence_witness :
    step id (initState emptyCreature) "Challenge Speed 30 ft.".toList
      = some { initState emptyCreature with c := { (initState emptyCreature).c with
          Speed := extractSpeed (trimSpace "Challenge Speed 30 ft.".toList) } } :=
  (C5_rule_precedence id (initState emptyCreature) "Challenge Speed 30 ft.".toList rfl).2.1
    (by decide) (by decide) (by decide) (by decide)

/-- C6: whatever the lines, the `extra` map of the record the classifier
produces from the empty record has no key "Source" (no entry of the map has
that key, so a lookup of "Source" finds nothing), also in the record that
`scrapeCreature` returns; and in any state, a line whose text before its first
period trims to "Source" leaves `extra` exactly as it was. -/
theorem C6_extra_never_has_source (caseTable : Char → Char) (lines : List Str)
    (st : LoopState)
    (h : classifyLines caseTable (initState emptyCreature) lines = some st) :
    (∀ e ∈ st.c.Extra, e.1 ≠ "Source".toList)
    ∧ mapGet st.c.Extra "Source".toList = none
    ∧ (∀ rows r, scrapeCreature caseTable emptyCreature lines rows = some r →
        (∀ e ∈ r.Extra, e.1 ≠ "Source".toList) ∧ mapGet r.Extra "Source".toList = none)
    ∧ (∀ (st0 st1 : LoopState) (line : Str), step caseTable st0 line = some st1 →
        trimSpace ((trimSpace line).takeWhile (fun ch => ch ≠ '.')) = "Source".toList →
        st1.c.Extra = st0.c.Extra) := by
  have hkeys : ∀ e ∈ st.c.Extra, e.1 ≠ "Source".toList :=
    classifyLines_no_source_key caseTable lines _ st h (by
      intro e he
      simp [initState, emptyCreature] at he)
  refine ⟨hkeys, mapGet_eq_none_of_no_key _ _ hkeys, ?_, ?_⟩
  · intro rows r hr
    unfold scrapeCreature at hr
    rw [h] at hr
    simp only [Option.some.injEq] at hr
    subst hr
    exact ⟨hkeys, mapGet_eq_none_of_no_key _ _ hkeys⟩
  · intro st0 st1 line hstep hsrc
    rcases step_extra caseTable st0 st1 line hstep with he | ⟨v, hn, _⟩
    · exact he
    · exact absurd hsrc hn

/-- C6 on the lines "Source. Monster Manual" and "Bite. Sharp teeth.": the
first is discarded, the second is the only entry of `extra`. -/
theorem C6_extra_never_has_source_witness :
    (∀ e ∈ ({ initState emptyCreature with c := { emptyCreature with
          Extra := [("Bite".toList, "Sharp teeth.".toList)] } } : LoopState).c.Extra,
        e.1 ≠ "Source".toList)
    ∧ mapGet ({ initState emptyCreature with c := { emptyCreature with
          Extra := [("Bite".toList, "Sharp teeth.".toList)] } } : LoopState).c.Extra
        "Source".toList = none
    ∧ (∀ rows r, scrapeCreature id emptyCreature
          ["Source. Monster Manual".toList, "Bite. Sharp teeth.".toList] rows = some r →
        (∀ e ∈ r.Extra, e.1 ≠ "Source".toList) ∧ mapGet r.Extra "Source".toList = none)
    ∧ (∀ (st0 st1 : LoopState) (line : Str), step id st0 line = some st1 →
        trimSpace ((trimSpace line).takeWhile (fun ch => ch ≠ '.')) = "Source".toList →
        st1.c.Extra = st0.c.Extra) :=
  C6_extra_never_has_source id
    ["Source. Monster Manual".toList, "Bite. Sharp teeth.".toList]
    { initState emptyCreature with c := { emptyCreature with
        Extra := [("Bite".toList, "Sharp teeth.".toList)] } }
    (by rfl)

/-- C7: a line whose trimmed, lower-cased text is "actions" or "description"
only switches the section flags: the step succeeds and the record is left
exactly as it was. -/
theorem C7_header_changes_only_mode (caseTable : Char → Char) (st : LoopState) (line : Str)
    (h : toLower caseTable (trimSpace line) = "actions".toList ∨
         toLower caseTable (trimSpace line) = "description".toList) :
    (toLower caseTable (trimSpace line) = "actions".toList →
        step caseTable st line = some { c := st.c, isDescription := false, isActions := true })
    ∧ (toLower caseTable (trimSpace line) = "description".toList →
        step caseTable st line = some { c := st.c, isDescription := true, isActions := false })
    ∧ ∃ st', step caseTable st line = some st' ∧ st'.c = st.c := by
  have hne : trimSpace line ≠ [] := by
    intro e
    rw [e] at h
    rcases h with h | h <;> simp [toLower] at h
  have ha : toLower caseTable (trimSpace line) = "actions".toList →
      step caseTable st line = some { c := st.c, isDescription := false, isActions := true } := by
    intro e
    simp only [step, if_neg hne, e, if_true]
  have hd : toLower caseTable (trimSpace line) = "description".toList →
      step caseTable st line = some { c := st.c, isDescription := true, isActions := false } := by
    intro e
    have e' : ¬ ("description".toList = "actions".toList) := by decide
    simp only [step, if_neg hne, e, if_neg e', if_true]
  refine ⟨ha, hd, ?_⟩
  rcases h with h | h
  · exact ⟨_, ha h, rfl⟩
  · exact ⟨_, hd h, rfl⟩

/-- C7 at the line "ACTIONS" in the start state. -/
theorem C7_header_changes_only_mode_witness :
    (toLower id (trimSpace "ACTIONS".toList) = "actions".toList →
        step id (initState emptyCreature) "ACTIONS".toList
          = some { c := emptyCreature, isDescription := false, isActions := true })
    ∧ (toLower id (trimSpace "ACTIONS".toList) = "description".toList →
        step id (initState emptyCreature) "ACTIONS".toList
          = some { c := emptyCreature, isDescription := true, isActions := false })
    ∧ ∃ st', step id (initState emptyCreature) "ACTIONS".toList = some st'
        ∧ st'.c = emptyCreature :=
  C7_header_changes_only_mode id (initState emptyCreature) "ACTIONS".toList
    (Or.inl (by decide))

/-- C8: in state Normal, a line that matches none of the rules a to g and
contains a period, with `name` the trimmed text before its first period and
`rest` the trimmed text after it, is stored as `extra[name] = rest` when `name`
is not "Source": the new value replaces any earlier one, every other key keeps
its value and nothing else in the state changes. In particular the line "Keen
Smell. The creature has advantage on Wisdom checks." yields extra["Keen Smell"]
= "The creature has advantage on Wisdom checks.". -/
theorem C8_trait_line_stored (caseTable : Char → Char) (st : LoopState)
    (hd : st.isDescription = false) (hact : st.isActions = false) :
    (∀ line : Str,
      contains (trimSpace line) "Armor Class".toList = false →
      contains (trimSpace line) "Hit Points".toList = false →
      contains (trimSpace line) "Speed".toList = false →
      contains (trimSpace line) "Attack:".toList = false →
      contains (trimSpace line) "beast".toList = false →
      hasPrefix (trimSpace line) "Challenge".toList = false →
      hasPrefix (trimSpace line) "Skills".toList = false →
      hasPrefix (trimSpace line) "Senses".toList = false →
      hasPrefix (trimSpace line) "Languages".toList = false →
      hasPrefix (trimSpace line) "Proficiency Bonus".toList = false →
      '.' ∈ trimSpace line →
      trimSpace ((trimSpace line).takeWhile (fun ch => ch ≠ '.')) ≠ "Source".toList →
      ∃ st', step caseTable st line = some st'
        ∧ st' = { st with c := { st.c with Extra := (mapSet st.c.Extra
            (trimSpace ((trimSpace line).takeWhile (fun ch => ch ≠ '.')))
            (trimSpace (((trimSpace line).dropWhile (fun ch => ch ≠ '.')).drop 1))) } }
        ∧ mapGet st'.c.Extra (trimSpace ((trimSpace line).takeWhile (fun ch => ch ≠ '.')))
            = some (trimSpace (((trimSpace line).dropWhile (fun ch => ch ≠ '.')).drop 1))
        ∧ ∀ k, k ≠ trimSpace ((trimSpace line).takeWhile (fun ch => ch ≠ '.')) →
            mapGet st'.c.Extra k = mapGet st.c.Extra k)
    ∧ (∃ st', step caseTable st keenSmellLine = some st'
      ∧ mapGet st'.c.Extra "Keen Smell".toList
          = some "The creature has advantage on Wisdom checks.".toList) := by
  constructor
  · intro line h1 h2 h3 h9 h10 h4 h5 h6 h7 h8 hper hname
    refine ⟨_, step_trait caseTable st line hd hact h1 h2 h3 h4 h5 h6 h7 h8 h9 h10 hper hname,
      rfl, mapGet_mapSet_self _ _ _, ?_⟩
    intro k hk
    exact mapGet_mapSet_of_ne _ _ _ _ hk
  · refine ⟨_, step_trait caseTable st keenSmellLine hd hact (by decide) (by decide)
      (by decide) (by decide) (by decide) (by decide) (by decide) (by decide) (by decide)
      (by decide) (by decide) (by decide), ?_⟩
    exact mapGet_mapSet_self _ _ _

/-- C8 at the line "Pack Tactics. Advantage near allies." in the start state:
the trait is stored under "Pack Tactics". -/
theorem C8_trait_line_stored_witness :
    ∃ st', step id (initState emptyCreature) "Pack Tactics. Advantage near allies.".toList
        = some st'
      ∧ st' = { initState emptyCreature with c := { (initState emptyCreature).c with
          Extra := (mapSet (initState emptyCreature).c.Extra
            (trimSpace ((trimSpace "Pack Tactics. Advantage near allies.".toList).takeWhile
              (fun ch => ch ≠ '.')))
            (trimSpace (((trimSpace "Pack Tactics. Advantage near allies.".toList).dropWhile
              (fun ch => ch ≠ '.')).drop 1))) } }
      ∧ mapGet st'.c.Extra
          (trimSpace ((trimSpace "Pack Tactics. Advantage near allies.".toList).takeWhile
            (fun ch => ch ≠ '.')))
          = some (trimSpace (((trimSpace "Pack Tactics. Advantage near allies.".toList).dropWhile
              (fun ch => ch ≠ '.')).drop 1))
      ∧ ∀ k, k ≠ trimSpace ((trimSpace "Pack Tactics. Advantage near allies.".toList).takeWhile
            (fun ch => ch ≠ '.')) →
          mapGet st'.c.Extra k = mapGet (initState emptyCreature).c.Extra k :=
  (C8_trait_line_stored id (initState emptyCreature) rfl rfl).1
    "Pack Tactics. Advantage near allies.".toList
    (by decide) (by decide) (by decide) (by decide) (by decide) (by decide)
    (by decide) (by decide) (by decide) (by decide) (by decide) (by decide)

/-- C9: a step that yields a state has at most one effect on the record: it
assigns one of the scalar fields armorClass, hitPoints, speed, challengeRating,
skills, senses, languages, proficiencyBonus, creatureType, or appends one
element to actions, or sets one key of extra, or appends to description, or
leaves the record as it was; every other field, title, imageUrl and
abilityScores included, keeps its value. -/
theorem C9_at_most_one_effect (caseTable : Char → Char) (st st' : LoopState) (line : Str)
    (h : step caseTable st line = some st') : OneEffect st.c st'.c := by
  have he := step_effect caseTable st st' line h
  unfold StepEffect at he
  unfold OneEffect
  rcases he with he | ⟨s, he⟩ | ⟨v, he⟩ | ⟨v, he⟩ | ⟨v, he⟩ | ⟨v, he⟩ | ⟨v, he⟩ | ⟨v, he⟩
    | ⟨v, he⟩ | ⟨v, he⟩ | ⟨v, he⟩ | ⟨a, he⟩ | ⟨v, _, he⟩
  · exact Or.inr (Or.inr (Or.inr (Or.inr (Or.inr (Or.inr (Or.inr (Or.inr (Or.inr (Or.inr
      (Or.inr (Or.inr he)))))))))))
  · exact Or.inr (Or.inr (Or.inr (Or.inr (Or.inr (Or.inr (Or.inr (Or.inr (Or.inr (Or.inr
      (Or.inr (Or.inl ⟨s, he⟩)))))))))))
  · exact Or.inl ⟨v, he⟩
  · exact Or.inr (Or.inl ⟨v, he⟩)
  · exact Or.inr (Or.inr (Or.inl ⟨v, he⟩))
  · exact Or.inr (Or.inr (Or.inr (Or.inl ⟨v, he⟩)))
  · exact Or.inr (Or.inr (Or.inr (Or.inr (Or.inl ⟨v, he⟩))))
  · exact Or.inr (Or.inr (Or.inr (Or.inr (Or.inr (Or.inl ⟨v, he⟩)))))
  · exact Or.inr (Or.inr (Or.inr (Or.inr (Or.inr (Or.inr (Or.inl ⟨v, he⟩))))))
  · exact Or.inr (Or.inr (Or.inr (Or.inr (Or.inr (Or.inr (Or.inr (Or.inl ⟨v, he⟩)))))))
  · exact Or.inr (Or.inr (Or.inr (Or.inr (Or.inr (Or.inr (Or.inr (Or.inr (Or.inl ⟨v, he⟩))))))))
  · exact Or.inr (Or.inr (Or.inr (Or.inr (Or.inr (Or.inr (Or.inr (Or.inr (Or.inr
      (Or.inl ⟨a, he⟩)))))))))
  · exact Or.inr (Or.inr (Or.inr (Or.inr (Or.inr (Or.inr (Or.inr (Or.inr (Or.inr (Or.inr
      (Or.inl ⟨_, v, he⟩))))))))))

/-- C9 at the line "Hit Points 30" in the start state. -/
theorem C9_at_most_one_effect_witness :
    OneEffect (initState emptyCreature).c
      ({ initState emptyCreature with c := { emptyCreature with HP := "30".toList } }
        : LoopState).c :=
  C9_at_most_one_effect id (initState emptyCreature)
    { initState emptyCreature with c := { emptyCreature with HP := "30".toList } }
    "Hit Points 30".toList (by rfl)

/-- C10: a phrase in which no decimal integer followed by optional white
space and "ft" occurs is returned by `extractSpeed` unchanged apart from the
removal of a leading "Speed" label and trimming; "unknown" comes back as
"unknown". -/
theorem C10_no_match_keeps_phrase :
    (∀ p : Str, (∀ pre d ws post, ¬ FtOccurrence p pre d ws post) →
      extractSpeed p = trimSpace (trimPrefix p "Speed".toList))
    ∧ extractSpeed "unknown".toList = "unknown".toList := by
  refine ⟨?_, by decide⟩
  intro p h
  exact extractSpeed_of_no_match p (findFt_eq_none p h)

/-- C10 at the phrase "Speed  swim only ": no digit at all, the phrase comes
back without the label and the blanks. -/
theorem C10_no_match_keeps_phrase_witness :
    extractSpeed "Speed  swim only ".toList
      = trimSpace (trimPrefix "Speed  swim only ".toList "Speed".toList) :=
  C10_no_match_keeps_phrase.1 "Speed  swim only ".toList (by
    rintro pre d ws post ⟨e, hne, hd, _⟩
    cases d with
    | nil => exact hne rfl
    | cons a l =>
      have ha : isDigit a = true := hd a (List.mem_cons_self _ _)
      have hmem : a ∈ "Speed  swim only ".toList := by
        rw [e]
        simp
      have hall : ∀ c ∈ "Speed  swim only ".toList, isDigit c = false := by decide
      rw [hall a hmem] at ha
      exact Bool.noConfusion ha)

/-- C12: over every line sequence, from the start state (both flags off, any
record), the state the classifier reaches never has the description flag and
the actions flag both set; and in any state, when a step changes one of the two
flags, the trimmed, lower-cased text of its line is exactly "actions" or
"description". -/
theorem C12_mode_exclusive_and_header_driven (caseTable : Char → Char) :
    (∀ (c : Creature) (lines : List Str) (st : LoopState),
      classifyLines caseTable (initState c) lines = some st →
      ¬ (st.isDescription = true ∧ st.isActions = true))
    ∧ (∀ (st st' : LoopState) (line : Str), step caseTable st line = some st' →
      (st'.isDescription ≠ st.isDescription ∨ st'.isActions ≠ st.isActions) →
      toLower caseTable (trimSpace line) = "actions".toList
        ∨ toLower caseTable (trimSpace line) = "description".toList) := by
  constructor
  · intro c lines st h
    exact classifyLines_exclusive caseTable lines _ st h (fun e => Bool.noConfusion e.1)
  · intro st st' line h hchg
    rcases step_flags caseTable st st' line h with ⟨h1, h2⟩ | ⟨ha, _, _⟩ | ⟨hd, _, _⟩
    · rcases hchg with e | e
      · exact absurd h1 e
      · exact absurd h2 e
    · exact Or.inl ha
    · exact Or.inr hd

/-- C12 on the lines "Actions", "Description": the final state is in
description mode only, and the step on "Actions" in the start state, which
switches the actions flag on, is a step on a header. -/
theorem C12_mode_exclusive_and_header_driven_witness :
    ¬ ((LoopState.mk emptyCreature true false).isDescription = true
        ∧ (LoopState.mk emptyCreature true false).isActions = true)
    ∧ (toLower id (trimSpace "Actions".toList) = "actions".toList
        ∨ toLower id (trimSpace "Actions".toList) = "description".toList) :=
  ⟨(C12_mode_exclusive_and_header_driven id).1 emptyCreature
     ["Actions".toList, "Description".toList] (LoopState.mk emptyCreature true false) (by rfl),
   (C12_mode_exclusive_and_header_driven id).2 (initState emptyCreature)
     (LoopState.mk emptyCreature false true) "Actions".toList
     (by rfl) (Or.inr (by decide))⟩

/-- C13: for every line sequence whose lines hold nothing but white space (the
empty sequence and empty lines included), with an empty table, the extraction
from the empty record does not fail and returns the all-empty record: every
string field is "", there is no action, and `extra` and `abilityScores` have
no entry. From any record the extraction returns that record unchanged. -/
theorem C13_blank_input_gives_empty_record (caseTable : Char → Char) (lines : List Str)
    (h : ∀ l ∈ lines, ∀ ch ∈ l, isSpace ch = true) :
    scrapeCreature caseTable emptyCreature lines [] = some emptyCreature
    ∧ (∀ c : Creature, scrapeCreature caseTable c lines [] = some c)
    ∧ (∃ r, scrapeCreature caseTable emptyCreature lines [] = some r
        ∧ r.Title = [] ∧ r.Subtitle = [] ∧ r.ImageURL = [] ∧ r.AC = [] ∧ r.HP = []
        ∧ r.Speed = [] ∧ r.Skills = [] ∧ r.Senses = [] ∧ r.Languages = []
        ∧ r.Proficiency = [] ∧ r.Description = [] ∧ r.Type_ = []
        ∧ r.Actions = [] ∧ r.Extra = [] ∧ r.Stats = []) := by
  have hall : ∀ c : Creature, scrapeCreature caseTable c lines [] = some c := by
    intro c
    unfold scrapeCreature
    rw [classifyLines_of_blank caseTable (initState c) lines
      (fun l hl => trimSpace_eq_nil_of_all_space l (h l hl))]
    rfl
  exact ⟨hall emptyCreature, hall, emptyCreature, hall emptyCreature,
    rfl, rfl, rfl, rfl, rfl, rfl, rfl, rfl, rfl, rfl, rfl, rfl, rfl, rfl, rfl⟩

/-- C13 on the lines "", "  " and a tab. -/
theorem C13_blank_input_gives_empty_record_witness :
    scrapeCreature id emptyCreature ["".toList, "  ".toList, "\t".toList] []
        = some emptyCreature
    ∧ (∀ c : Creature,
        scrapeCreature id c ["".toList, "  ".toList, "\t".toList] [] = some c)
    ∧ (∃ r, scrapeCreature id emptyCreature ["".toList, "  ".toList, "\t".toList] [] = some r
        ∧ r.Title = [] ∧ r.Subtitle = [] ∧ r.ImageURL = [] ∧ r.AC = [] ∧ r.HP = []
        ∧ r.Speed = [] ∧ r.Skills = [] ∧ r.Senses = [] ∧ r.Languages = []
        ∧ r.Proficiency = [] ∧ r.Description = [] ∧ r.Type_ = []
        ∧ r.Actions = [] ∧ r.Extra = [] ∧ r.Stats = []) :=
  C13_blank_input_gives_empty_record id ["".toList, "  ".toList, "\t".toList] (by decide)

/-- C14: in description mode a line that is not empty once trimmed and is
not a section header is appended to the description, trimmed but otherwise as
written, followed by two newline characters; the flags and every other field
stay as they were, also when the line holds a label such as "Armor Class".
Hence a run of such lines in description mode, and so the lines after a
"Description" header, adds their paragraphs to the description in document
order. -/
theorem C14_description_lines_appended (caseTable : Char → Char) :
    (∀ (st : LoopState) (line : Str), st.isDescription = true → trimSpace line ≠ [] →
      toLower caseTable (trimSpace line) ≠ "actions".toList →
      toLower caseTable (trimSpace line) ≠ "description".toList →
      step caseTable st line
        = some { st with c := { st.c with
            Description := st.c.Description ++ (trimSpace line ++ "\n\n".toList) } })
    ∧ (∀ (st : LoopState) (lines : List Str),
      (∀ l ∈ lines, trimSpace l ≠ [] ∧ toLower caseTable (trimSpace l) ≠ "actions".toList
        ∧ toLower caseTable (trimSpace l) ≠ "description".toList) →
      classifyLines caseTable st ("Description".toList :: lines)
        = some { c := { st.c with Description := st.c.Description ++ paragraphs lines },
                 isDescription := true, isActions := false })
    ∧ (∀ st : LoopState, st.isDescription = true →
      step caseTable st "Armor Class 15".toList
        = some { st with c := { st.c with
            Description := st.c.Description ++ "Armor Class 15\n\n".toList } }) := by
  refine ⟨fun st line hd hne ha hdesc => step_in_description caseTable st line hd hne ha hdesc,
    ?_, ?_⟩
  · intro st lines h
    have hhead : step caseTable st "Description".toList
        = some { c := st.c, isDescription := true, isActions := false } := rfl
    simp only [classifyLines, hhead]
    exact classifyLines_in_description caseTable lines _ rfl h
  · intro st hd
    exact step_in_description caseTable st "Armor Class 15".toList hd (by decide)
      (by rw [show toLower caseTable (trimSpace "Armor Class 15".toList)
            = "armor class 15".toList from rfl]; decide)
      (by rw [show toLower caseTable (trimSpace "Armor Class 15".toList)
            = "armor class 15".toList from rfl]; decide)

/-- C14 on the lines "Description", "Speed 30 ft.", "A fearsome beast." from
the start state: the description is "Speed 30 ft.", two newlines, "A fearsome
beast.", two newlines. -/
theorem C14_description_lines_appended_witness :
    classifyLines id (initState emptyCreature)
        ("Description".toList :: ["Speed 30 ft.".toList, "A fearsome beast.".toList])
      = some { c := { (initState emptyCreature).c with
                 Description := (initState emptyCreature).c.Description
                   ++ paragraphs ["Speed 30 ft.".toList, "A fearsome beast.".toList] },
               isDescription := true, isActions := false } :=
  (C14_description_lines_appended id).2.1 (initState emptyCreature)
    ["Speed 30 ft.".toList, "A fearsome beast.".toList] (by decide)

/-- C15: for every value `v` up to 1000000, the figure `extractSpeed` prints
before "q" is the integer nearest to `v / 5` and the figure before "m" is the
integer nearest to `3 v / 10` (both within one half of the exact value), the
tie of the "m" figure, at `v` congruent to 5 modulo 10, going to the even
integer; so for every phrase whose first integer before "ft" has such a value
the result is "<v> ft (<q> q, <m> m)" with these two figures, followed by the
tail of the other movement modes. 5 ft gives "5 ft (1 q, 2 m)", 15 ft gives
"15 ft (3 q, 4 m)", 25 ft gives "25 ft (5 q, 8 m)". -/
theorem C15_speed_figures_nearest :
    (∀ v : Nat, v ≤ 1000000 →
      qFigure v = roundHalfEven v 5 ∧ mFigure v = roundHalfEven (3 * v) 10
      ∧ (10 * qFigure v ≤ 2 * v + 5 ∧ 2 * v ≤ 10 * qFigure v + 5)
      ∧ (10 * mFigure v ≤ 3 * v + 5 ∧ 3 * v ≤ 10 * mFigure v + 5)
      ∧ (v % 10 = 5 → mFigure v % 2 = 0))
    ∧ (∀ p pre d ws post : Str, FirstFtOccurrence p pre d ws post →
      digitsToNat d ≤ 1000000 →
      extractSpeed p =
        Nat.toDigits 10 (digitsToNat d) ++ " ft (".toList
          ++ Nat.toDigits 10 (roundHalfEven (digitsToNat d) 5) ++ " q, ".toList
          ++ Nat.toDigits 10 (roundHalfEven (3 * digitsToNat d) 10) ++ " m)".toList
          ++ (if ',' ∈ speedPhrase p then ',' :: afterFirst ',' (speedPhrase p) else []))
    ∧ extractSpeed "5 ft".toList = "5 ft (1 q, 2 m)".toList
    ∧ extractSpeed "15 ft".toList = "15 ft (3 q, 4 m)".toList
    ∧ extractSpeed "25 ft".toList = "25 ft (5 q, 8 m)".toList := by
  have hfig : ∀ v : Nat, v ≤ 1000000 →
      qFigure v = roundHalfEven v 5 ∧ mFigure v = roundHalfEven (3 * v) 10 := by
    intro v hv
    by_cases h5 : 5 ≤ v
    · exact ⟨qFigure_eq v h5 hv, mFigure_eq v h5 hv⟩
    · have hlt : v < 5 := by omega
      interval_cases v <;> exact ⟨by decide, by decide⟩
  refine ⟨?_, ?_, by decide, by decide, by decide⟩
  · intro v hv
    obtain ⟨hq, hm⟩ := hfig v hv
    obtain ⟨q1, q2⟩ := roundHalfEven_error v 5 (by decide)
    obtain ⟨m1, m2⟩ := roundHalfEven_error (3 * v) 10 (by decide)
    refine ⟨hq, hm, ?_, ?_, ?_⟩
    · rw [hq]
      constructor <;> omega
    · rw [hm]
      constructor <;> omega
    · intro htie
      rw [hm, roundHalfEven_of_tie (3 * v) 10 (3 * (v / 10) + 1) 5 (by omega) (by decide) rfl]
      split_ifs <;> omega
  · intro p pre d ws post hocc hle
    have hfit : digitsToNat d ≤ maxInt := by
      have : (1000000 : Nat) ≤ maxInt := by decide
      omega
    obtain ⟨hq, hm⟩ := hfig (digitsToNat d) hle
    rw [extractSpeed_of_match p d (findFt_first p pre d ws post hocc) hfit]
    unfold speedBase
    rw [hq, hm]

/-- C15 at the phrase "35 ft., swim 20 ft.": 7 q and, 10.5 being a tie, 10 m. -/
theorem C15_speed_figures_nearest_witness :
    (qFigure 35 = roundHalfEven 35 5 ∧ mFigure 35 = roundHalfEven (3 * 35) 10
      ∧ (10 * qFigure 35 ≤ 2 * 35 + 5 ∧ 2 * 35 ≤ 10 * qFigure 35 + 5)
      ∧ (10 * mFigure 35 ≤ 3 * 35 + 5 ∧ 3 * 35 ≤ 10 * mFigure 35 + 5)
      ∧ (35 % 10 = 5 → mFigure 35 % 2 = 0))
    ∧ extractSpeed "35 ft., swim 20 ft.".toList =
        Nat.toDigits 10 (digitsToNat "35".toList) ++ " ft (".toList
          ++ Nat.toDigits 10 (roundHalfEven (digitsToNat "35".toList) 5) ++ " q, ".toList
          ++ Nat.toDigits 10 (roundHalfEven (3 * digitsToNat "35".toList) 10) ++ " m)".toList
          ++ (if ',' ∈ speedPhrase "35 ft., swim 20 ft.".toList
              then ',' :: afterFirst ',' (speedPhrase "35 ft., swim 20 ft.".toList) else []) :=
  ⟨C15_speed_figures_nearest.1 35 (by decide),
   C15_speed_figures_nearest.2.1 "35 ft., swim 20 ft.".toList [] "35".toList " ".toList
     "., swim 20 ft.".toList
     ⟨⟨by decide, by decide, by decide, by decide⟩, fun _ _ _ _ _ => Nat.zero_le _⟩
     (by decide)⟩

/-- C16: outside description mode, the value a label rule assigns is the
trimmed line with the label removed only when the label is a prefix of it,
then trimmed, and the trimmed line whole otherwise. This holds for a line that
contains "Armor Class"; for one that contains "Hit Points" (and not "Armor
Class"); and for one that starts with "Skills", "Senses", "Languages" or
"Proficiency Bonus" (and contains none of "Armor Class", "Hit Points",
"Speed"), where the label always is a prefix. "Armor Class 15" gives armorClass
"15", "Natural Armor Class 12" is stored whole. -/
theorem C16_label_prefix_only (caseTable : Char → Char) (st : LoopState)
    (hd : st.isDescription = false) :
    (∀ line : Str, contains (trimSpace line) "Armor Class".toList = true →
      step caseTable st line = some { st with c := { st.c with
        AC := labelStripped "Armor Class".toList (trimSpace line) } })
    ∧ (∀ line : Str, contains (trimSpace line) "Armor Class".toList = false →
      contains (trimSpace line) "Hit Points".toList = true →
      step caseTable st line = some { st with c := { st.c with
        HP := labelStripped "Hit Points".toList (trimSpace line) } })
    ∧ (∀ line : Str, contains (trimSpace line) "Armor Class".toList = false →
      contains (trimSpace line) "Hit Points".toList = false →
      contains (trimSpace line) "Speed".toList = false →
      (hasPrefix (trimSpace line) "Skills".toList = true →
        step caseTable st line = some { st with c := { st.c with
          Skills := trimSpace ((trimSpace line).drop "Skills".toList.length) } })
      ∧ (hasPrefix (trimSpace line) "Senses".toList = true →
        step caseTable st line = some { st with c := { st.c with
          Senses := trimSpace ((trimSpace line).drop "Senses".toList.length) } })
      ∧ (hasPrefix (trimSpace line) "Languages".toList = true →
        step caseTable st line = some { st with c := { st.c with
          Languages := trimSpace ((trimSpace line).drop "Languages".toList.length) } })
      ∧ (hasPrefix (trimSpace line) "Proficiency Bonus".toList = true →
        step caseTable st line = some { st with c := { st.c with
          Proficiency :=
            trimSpace ((trimSpace line).drop "Proficiency Bonus".toList.length) } }))
    ∧ step caseTable st "Armor Class 15".toList
        = some { st with c := { st.c with AC := "15".toList } }
    ∧ step caseTable st "Natural Armor Class 12".toList
        = some { st with c := { st.c with AC := "Natural Armor Class 12".toList } } := by
  refine ⟨fun line h => step_armorClass caseTable st line hd h,
    fun line hac h => step_hitPoints caseTable st line hd hac h, ?_, ?_, ?_⟩
  · intro line hac hhp hs
    refine ⟨fun h => ?_, fun h => ?_, fun h => ?_, fun h => ?_⟩
    · rw [step_skills caseTable st line hd hac hhp hs h, labelStripped_of_hasPrefix _ _ h]
    · rw [step_senses caseTable st line hd hac hhp hs h, labelStripped_of_hasPrefix _ _ h]
    · rw [step_languages caseTable st line hd hac hhp hs h, labelStripped_of_hasPrefix _ _ h]
    · rw [step_proficiency caseTable st line hd hac hhp hs h, labelStripped_of_hasPrefix _ _ h]
  · rw [step_armorClass caseTable st "Armor Class 15".toList hd (by decide)]
    rfl
  · rw [step_armorClass caseTable st "Natural Armor Class 12".toList hd (by decide)]
    rfl

/-- C16 at the lines "Senses darkvision 60 ft." and "Natural Armor Class 12" in
the start state. -/
theorem C16_label_prefix_only_witness :
    step id (initState emptyCreature) "Senses darkvision 60 ft.".toList
        = some { initState emptyCreature with c := { (initState emptyCreature).c with
            Senses := trimSpace ((trimSpace "Senses darkvision 60 ft.".toList).drop
              "Senses".toList.length) } }
    ∧ step id (initState emptyCreature) "Natural Armor Class 12".toList
        = some { initState emptyCreature with c := { (initState emptyCreature).c with
            AC := labelStripped "Armor Class".toList
              (trimSpace "Natural Armor Class 12".toList) } } :=
  ⟨((C16_label_prefix_only id (initState emptyCreature) rfl).2.2.1
      "Senses darkvision 60 ft.".toList (by decide) (by decide) (by decide)).2.1 (by decide),
   (C16_label_prefix_only id (initState emptyCreature) rfl).1
      "Natural Armor Class 12".toList (by decide)⟩

/-- C17: outside description mode, a line that is not empty, is not a section
header, is taken by none of the label rules, and is read in actions mode or
contains "Attack:", appends exactly one pair at the end of `actions` (the
earlier actions stay, in order; nothing is merged): the name is the untrimmed
text before the first period, the description is the line without the prefix
name + ".", trimmed. With a period in the line, the description is the trimmed
text after the first period; with none, name and description are both the
whole line. -/
theorem C17_action_line_appended (caseTable : Char → Char) (st : LoopState) (line : Str)
    (hd : st.isDescription = false) (hne : trimSpace line ≠ [])
    (ha : toLower caseTable (trimSpace line) ≠ "actions".toList)
    (hdesc : toLower caseTable (trimSpace line) ≠ "description".toList)
    (h1 : contains (trimSpace line) "Armor Class".toList = false)
    (h2 : contains (trimSpace line) "Hit Points".toList = false)
    (h3 : contains (trimSpace line) "Speed".toList = false)
    (h4 : hasPrefix (trimSpace line) "Challenge".toList = false)
    (h5 : hasPrefix (trimSpace line) "Skills".toList = false)
    (h6 : hasPrefix (trimSpace line) "Senses".toList = false)
    (h7 : hasPrefix (trimSpace line) "Languages".toList = false)
    (h8 : hasPrefix (trimSpace line) "Proficiency Bonus".toList = false)
    (h9 : st.isActions = true ∨ contains (trimSpace line) "Attack:".toList = true) :
    step caseTable st line
      = some { st with c := { st.c with Actions := st.c.Actions ++
          [{ Name := (trimSpace line).takeWhile (fun ch => ch ≠ '.'),
             Description := trimSpace (trimPrefix (trimSpace line)
               ((trimSpace line).takeWhile (fun ch => ch ≠ '.') ++ ['.'])) }] } }
    ∧ ('.' ∈ trimSpace line →
        trimSpace (trimPrefix (trimSpace line)
            ((trimSpace line).takeWhile (fun ch => ch ≠ '.') ++ ['.']))
          = trimSpace (afterFirst '.' (trimSpace line)))
    ∧ ('.' ∉ trimSpace line →
        (trimSpace line).takeWhile (fun ch => ch ≠ '.') = trimSpace line
        ∧ trimSpace (trimPrefix (trimSpace line)
            ((trimSpace line).takeWhile (fun ch => ch ≠ '.') ++ ['.']))
          = trimSpace line) := by
  refine ⟨step_action caseTable st line hd hne ha hdesc h1 h2 h3 h4 h5 h6 h7 h8 h9, ?_, ?_⟩
  · intro hmem
    rw [trimPrefix_takeWhile_sep '.' (trimSpace line) hmem]
  · intro hmem
    have e := takeWhile_ne_of_not_mem '.' (trimSpace line) hmem
    refine ⟨e, ?_⟩
    rw [e, trimPrefix_of_longer _ _ (by simp), trimSpace_trimSpace]

/-- C17 at the line "Bite. +4 to hit." read in actions mode after one earlier
action. -/
theorem C17_action_line_appended_witness :
    step id (LoopState.mk { emptyCreature with Actions := [Action.mk "Claw".toList []] }
        false true) "Bite. +4 to hit.".toList
      = some { LoopState.mk { emptyCreature with Actions := [Action.mk "Claw".toList []] }
          false true with
          c := { (LoopState.mk { emptyCreature with Actions := [Action.mk "Claw".toList []] }
            false true).c with
            Actions := (LoopState.mk { emptyCreature with
                Actions := [Action.mk "Claw".toList []] } false true).c.Actions ++
              [{ Name := (trimSpace "Bite. +4 to hit.".toList).takeWhile (fun ch => ch ≠ '.'),
                 Description := trimSpace (trimPrefix (trimSpace "Bite. +4 to hit.".toList)
                   ((trimSpace "Bite. +4 to hit.".toList).takeWhile (fun ch => ch ≠ '.')
                     ++ ['.'])) }] } } :=
  (C17_action_line_appended id
    (LoopState.mk { emptyCreature with Actions := [Action.mk "Claw".toList []] } false true)
    "Bite. +4 to hit.".toList rfl (by decide) (by decide) (by decide) (by decide) (by decide)
    (by decide) (by decide) (by decide) (by decide) (by decide) (by decide)
    (Or.inl rfl)).1

/-- C18: in state Normal, for a line that contains "beast" and that no earlier
rule takes: when some substring of the line has the shape word characters,
space, "beast,", space, word characters, the step sets creatureType to the
whole line and changes nothing else, `extra` included; otherwise the step is
that of the trait rule: with a period in the line and a name other than
"Source" the trait is stored in `extra`, and without a period the line is
discarded. The line "A fearsome beast." sets extra["A fearsome beast"] = "". -/
theorem C18_beast_rule (caseTable : Char → Char) (st : LoopState)
    (hd : st.isDescription = false) (hact : st.isActions = false) :
    (∀ line : Str,
      contains (trimSpace line) "Armor Class".toList = false →
      contains (trimSpace line) "Hit Points".toList = false →
      contains (trimSpace line) "Speed".toList = false →
      hasPrefix (trimSpace line) "Challenge".toList = false →
      hasPrefix (trimSpace line) "Skills".toList = false →
      hasPrefix (trimSpace line) "Senses".toList = false →
      hasPrefix (trimSpace line) "Languages".toList = false →
      hasPrefix (trimSpace line) "Proficiency Bonus".toList = false →
      contains (trimSpace line) "Attack:".toList = false →
      contains (trimSpace line) "beast".toList = true →
      (HasBeastShape (trimSpace line) →
        step caseTable st line = some { st with c := { st.c with Type_ := trimSpace line } })
      ∧ (¬ HasBeastShape (trimSpace line) →
        step caseTable st line = defaultCase st (trimSpace line)
        ∧ step caseTable st line =
          (if '.' ∈ trimSpace line
              ∧ trimSpace ((trimSpace line).takeWhile (fun ch => ch ≠ '.')) ≠ "Source".toList
            then some { st with c := { st.c with Extra := (mapSet st.c.Extra
              (trimSpace ((trimSpace line).takeWhile (fun ch => ch ≠ '.')))
              (trimSpace (afterFirst '.' (trimSpace line)))) } }
            else some st)
        ∧ ('.' ∉ trimSpace line → step caseTable st line = some st)))
    ∧ step caseTable st fearsomeLine
        = some { st with c := { st.c with
            Extra := mapSet st.c.Extra "A fearsome beast".toList [] } } := by
  have key : ∀ line : Str,
      contains (trimSpace line) "Armor Class".toList = false →
      contains (trimSpace line) "Hit Points".toList = false →
      contains (trimSpace line) "Speed".toList = false →
      hasPrefix (trimSpace line) "Challenge".toList = false →
      hasPrefix (trimSpace line) "Skills".toList = false →
      hasPrefix (trimSpace line) "Senses".toList = false →
      hasPrefix (trimSpace line) "Languages".toList = false →
      hasPrefix (trimSpace line) "Proficiency Bonus".toList = false →
      contains (trimSpace line) "Attack:".toList = false →
      contains (trimSpace line) "beast".toList = true →
      ¬ HasBeastShape (trimSpace line) →
      step caseTable st line =
          (if '.' ∈ trimSpace line
              ∧ trimSpace ((trimSpace line).takeWhile (fun ch => ch ≠ '.')) ≠ "Source".toList
            then some { st with c := { st.c with Extra := (mapSet st.c.Extra
              (trimSpace ((trimSpace line).takeWhile (fun ch => ch ≠ '.')))
              (trimSpace (afterFirst '.' (trimSpace line)))) } }
            else some st) := by
    intro line h1 h2 h3 h4 h5 h6 h7 h8 h9 h10 hshape
    have hm : ¬ beastMatch (trimSpace line) = true := fun e =>
      hshape ((beastMatch_iff _).mp e)
    rw [step_beast caseTable st line hd hact h1 h2 h3 h4 h5 h6 h7 h8 h9 h10, if_neg hm,
      defaultCase_eq st _ hd]
    rfl
  refine ⟨?_, ?_⟩
  · intro line h1 h2 h3 h4 h5 h6 h7 h8 h9 h10
    refine ⟨?_, ?_⟩
    · intro hshape
      rw [step_beast caseTable st line hd hact h1 h2 h3 h4 h5 h6 h7 h8 h9 h10,
        if_pos ((beastMatch_iff _).mpr hshape)]
    · intro hshape
      have hm : ¬ beastMatch (trimSpace line) = true := fun e =>
        hshape ((beastMatch_iff _).mp e)
      refine ⟨?_, key line h1 h2 h3 h4 h5 h6 h7 h8 h9 h10 hshape, ?_⟩
      · rw [step_beast caseTable st line hd hact h1 h2 h3 h4 h5 h6 h7 h8 h9 h10, if_neg hm]
      · intro hper
        rw [key line h1 h2 h3 h4 h5 h6 h7 h8 h9 h10 hshape, if_neg (fun e => hper e.1)]
  · have hshape : ¬ HasBeastShape (trimSpace fearsomeLine) := fun e =>
      absurd ((beastMatch_iff _).mpr e) (by decide)
    rw [key fearsomeLine (by decide) (by decide) (by decide) (by decide) (by decide)
      (by decide) (by decide) (by decide) (by decide) (by decide) hshape,
      if_pos (by decide)]
    rfl

/-- C18 at the lines "Large beast, unaligned" (which has the shape) and
"Beware the beast" (no shape, no period) in the start state. -/
theorem C18_beast_rule_witness :
    step id (initState emptyCreature) "Large beast, unaligned".toList
        = some { initState emptyCreature with c := { (initState emptyCreature).c with
            Type_ := trimSpace "Large beast, unaligned".toList } }
    ∧ step id (initState emptyCreature) "Beware the beast".toList
        = some (initState emptyCreature) :=
  ⟨((C18_beast_rule id (initState emptyCreature) rfl rfl).1 "Large beast, unaligned".toList
      (by decide) (by decide) (by decide) (by decide) (by decide) (by decide) (by decide)
      (by decide) (by decide) (by decide)).1
      ⟨[], "Large".toList, "unaligned".toList, [], by decide, by decide, by decide, by decide,
        by decide⟩,
   (((C18_beast_rule id (initState emptyCreature) rfl rfl).1 "Beware the beast".toList
      (by decide) (by decide) (by decide) (by decide) (by decide) (by decide) (by decide)
      (by decide) (by decide) (by decide)).2
      (fun e => absurd ((beastMatch_iff _).mpr e) (by decide))).2.2 (by decide)⟩

/-- C19: outside description mode, a line that starts with "Challenge",
contains none of "Armor Class", "Hit Points", "Speed" and has at least two
white-space separated tokens sets challengeRating to its second token and
changes nothing else. The second token is what `strings.Fields` puts at index
1; when the trimmed line reads token, white space, token, and then ends or
goes on with a space, it is that second token. "Challenge 1/4 (50 XP)" gives
"1/4". -/
theorem C19_challenge_second_token (caseTable : Char → Char) (st : LoopState)
    (hd : st.isDescription = false) :
    (∀ line : Str,
      hasPrefix (trimSpace line) "Challenge".toList = true →
      contains (trimSpace line) "Armor Class".toList = false →
      contains (trimSpace line) "Hit Points".toList = false →
      contains (trimSpace line) "Speed".toList = false →
      2 ≤ (fields (trimSpace line)).length →
      ∃ tok, (fields (trimSpace line))[1]? = some tok
        ∧ step caseTable st line = some { st with c := { st.c with Subtitle := tok } }
        ∧ ∀ t1 ws t2 rest : Str, trimSpace line = t1 ++ ws ++ t2 ++ rest →
            t1 ≠ [] → (∀ c ∈ t1, isSpace c = false) →
            ws ≠ [] → (∀ c ∈ ws, isSpace c = true) →
            t2 ≠ [] → (∀ c ∈ t2, isSpace c = false) →
            (rest = [] ∨ ∃ c r, rest = c :: r ∧ isSpace c = true) →
            tok = t2)
    ∧ step caseTable st "Challenge 1/4 (50 XP)".toList
        = some { st with c := { st.c with Subtitle := "1/4".toList } } := by
  constructor
  · intro line hp hac hhp hs hlen
    cases hf : (fields (trimSpace line))[1]? with
    | none =>
      have := List.getElem?_eq_none_iff.mp hf
      omega
    | some tok =>
      refine ⟨tok, rfl, step_challenge caseTable st line tok hd hp hac hhp hs hf, ?_⟩
      intro t1 ws t2 rest e h1 ht1 hw hws h2 ht2 hr
      have hsec := fields_second t1 ws t2 rest h1 ht1 hw hws h2 ht2 hr
      rw [← e, hf] at hsec
      exact Option.some.inj hsec
  · exact step_challenge caseTable st "Challenge 1/4 (50 XP)".toList "1/4".toList hd
      (by decide) (by decide) (by decide) (by decide) (by decide)

/-- C19 at the line "Challenge 5 (1,800 XP)" in the start state: the second
token is "5". -/
theorem C19_challenge_second_token_witness :
    ∃ tok, (fields (trimSpace "Challenge 5 (1,800 XP)".toList))[1]? = some tok
      ∧ step id (initState emptyCreature) "Challenge 5 (1,800 XP)".toList
          = some { initState emptyCreature with
              c := { (initState emptyCreature).c with Subtitle := tok } }
      ∧ ∀ t1 ws t2 rest : Str,
          trimSpace "Challenge 5 (1,800 XP)".toList = t1 ++ ws ++ t2 ++ rest →
          t1 ≠ [] → (∀ c ∈ t1, isSpace c = false) →
          ws ≠ [] → (∀ c ∈ ws, isSpace c = true) →
          t2 ≠ [] → (∀ c ∈ t2, isSpace c = false) →
          (rest = [] ∨ ∃ c r, rest = c :: r ∧ isSpace c = true) →
          tok = t2 :=
  (C19_challenge_second_token id (initState emptyCreature) rfl).1
    "Challenge 5 (1,800 XP)".toList (by decide) (by decide) (by decide) (by decide) (by decide)

end ScraperToMd
